import Mathlib

/-!
Verification development for the Helm Poll client core
(`src/legacy/legacy.app.js`).

The JavaScript source is shallowly embedded: plain objects used as
string-keyed maps become association lists updated in property-insertion
order, `localStorage`-backed state becomes an explicit record threaded
through the operations, network responses and random values are explicit
parameters, and the event trace of a run is returned alongside the new
state.  Environment primitives (SHA-256, HMAC, `JSON.stringify`) are
parameters of the definitions that use them.
-/

namespace HelmPoll

/-- JS property read on a plain object modelled as an association list:
the value at the first occurrence of the key, `none` for a missing key
(JS `undefined`). -/
def lookupA {β : Type} : List (String × β) → String → Option β
  | [], _ => none
  | (k', v') :: rest, k => if k' = k then some v' else lookupA rest k

/-- JS property write `obj[k] = v` on a plain object: replace the value at
the first occurrence of the key, or append the new binding (property
insertion order). -/
def setA {β : Type} : List (String × β) → String → β → List (String × β)
  | [], k, v => [(k, v)]
  | (k', v') :: rest, k, v =>
      if k' = k then (k', v) :: rest else (k', v') :: setA rest k v

/-- JS `String.prototype.startsWith` (by code units; all strings involved
are plain ASCII). -/
def startsWithJs (s pfx : String) : Bool := pfx.data.isPrefixOf s.data

-- =========================
-- Local votes (`setLocalVote`, storage key breadpoll_local_votes_v1)
-- =========================

/-- The per-poll vote record: `{ byToken: {token: choice}, counts: {option: n} }`.
Counts in the source are only ever initialised to 0, incremented, or
decremented under a `Math.max(0, · - 1)` clamp, so they are naturals and
the clamped JS decrement is exactly truncated subtraction. -/
structure VoteState where
  byToken : List (String × String)
  counts : List (String × Nat)
deriving Repr, DecidableEq

def emptyVoteState : VoteState := { byToken := [], counts := [] }

/-- `(options || []).forEach(opt => { if (typeof counts[opt] !== "number") counts[opt] = 0; })` -/
def initCounts (counts : List (String × Nat)) : List String → List (String × Nat)
  | [] => counts
  | opt :: rest =>
      initCounts
        (match lookupA counts opt with
          | some _ => counts
          | none => setA counts opt 0)
        rest

/-- `if (prev && typeof st.counts[prev] === "number") st.counts[prev] = Math.max(0, st.counts[prev] - 1)`.
`prev` is the token's previously stored choice (`undefined` when absent);
an empty-string previous choice is falsy in JS and skips the decrement.
The clamped decrement is truncated subtraction on `Nat`. -/
def decPrevChoice (cs : List (String × Nat)) : Option String → List (String × Nat)
  | some p =>
      if p = "" then cs
      else
        match lookupA cs p with
        | some n => setA cs p (n - 1)
        | none => cs
  | none => cs

/-- `if (typeof st.counts[choice] !== "number") st.counts[choice] = 0; st.counts[choice] += 1` -/
def incChoice (cs : List (String × Nat)) (choice : String) : List (String × Nat) :=
  let ensured :=
    match lookupA cs choice with
    | some _ => cs
    | none => setA cs choice 0
  setA ensured choice ((lookupA ensured choice).getD 0 + 1)

/-- Body of `setLocalVote` acting on one poll's `VoteState`: initialise the
counts for the option list, decrement the previous choice, store the new
choice for the token, increment the new choice. -/
def applyVote (st : VoteState) (token choice : String) (options : List String) : VoteState :=
  let counts0 := initCounts st.counts options
  let counts1 := decPrevChoice counts0 (lookupA st.byToken token)
  { byToken := setA st.byToken token choice,
    counts := incChoice counts1 choice }

/-- `setLocalVote(pollId, token, choice, options)` over the whole
`breadpoll_local_votes_v1` map. -/
def setLocalVote (all : List (String × VoteState)) (pollId token choice : String)
    (options : List String) : List (String × VoteState) :=
  let st := (lookupA all pollId).getD emptyVoteState
  setA all pollId (applyVote st token choice options)

/-- One `recordVote` call on a single poll. -/
structure VoteOp where
  token : String
  choice : String
  options : List String
deriving Repr, DecidableEq

/-- The stored `VoteState` of one poll after a sequence of `setLocalVote`
calls starting from an absent record. -/
def runVotes (ops : List VoteOp) : VoteState :=
  ops.foldl (fun st op => applyVote st op.token op.choice op.options) emptyVoteState

def sumCounts (counts : List (String × Nat)) : Nat :=
  (counts.map Prod.snd).sum

/-- Number of distinct tokens with at least one recorded vote. -/
def distinctTokens (st : VoteState) : Nat :=
  ((st.byToken.map Prod.fst).dedup).length

/-- Number of tokens currently recorded as voting for choice `c`. -/
def countsOfChoice (bt : List (String × String)) (c : String) : Nat :=
  (bt.filter (fun q => q.2 == c)).length

def keysOf {β : Type} (l : List (String × β)) : List String := l.map Prod.fst

-- ---- association-list lemmas ----

theorem lookupA_setA_self {β : Type} (l : List (String × β)) (k : String) (v : β) :
    lookupA (setA l k v) k = some v := by
  induction l with
  | nil => simp [setA, lookupA]
  | cons p rest ih =>
    by_cases h : p.1 = k
    · simp [setA, h, lookupA]
    · simp [setA, h, lookupA, ih]

theorem lookupA_setA_ne {β : Type} (l : List (String × β)) (k k' : String) (v : β)
    (h : k' ≠ k) : lookupA (setA l k v) k' = lookupA l k' := by
  induction l with
  | nil => simp [setA, lookupA, Ne.symm h]
  | cons p rest ih =>
    by_cases hh : p.1 = k
    · subst hh
      simp [setA, lookupA, Ne.symm h]
    · by_cases hk' : p.1 = k'
      · rw [show setA (p :: rest) k v = p :: setA rest k v from by simp [setA, hh]]
        simp [lookupA, hk']
      · simp [setA, hh, lookupA, hk', ih]

theorem setA_eq_of_lookup {β : Type} (l : List (String × β)) (k : String) (v : β)
    (h : lookupA l k = some v) : setA l k v = l := by
  induction l with
  | nil => simp [lookupA] at h
  | cons p rest ih =>
    by_cases hh : p.1 = k
    · subst hh
      simp [lookupA] at h
      subst h
      simp [setA]
    · simp [lookupA, hh] at h
      simp [setA, hh, ih h]

theorem setA_setA_same {β : Type} (l : List (String × β)) (k : String) (v w : β) :
    setA (setA l k v) k w = setA l k w := by
  induction l with
  | nil => simp [setA]
  | cons p rest ih =>
    by_cases hh : p.1 = k
    · simp [setA, hh]
    · simp [setA, hh, ih]

theorem setA_of_lookup_none {β : Type} (l : List (String × β)) (k : String) (v : β)
    (h : lookupA l k = none) : setA l k v = l ++ [(k, v)] := by
  induction l with
  | nil => simp [setA]
  | cons p rest ih =>
    by_cases hh : p.1 = k
    · simp [lookupA, hh] at h
    · simp [lookupA, hh] at h
      simp [setA, hh, ih h]

theorem lookupA_isSome_setA {β : Type} (l : List (String × β)) (k k' : String) (v : β)
    (h : (lookupA l k').isSome) : (lookupA (setA l k v) k').isSome := by
  by_cases hk : k' = k
  · subst hk; simp [lookupA_setA_self]
  · rw [lookupA_setA_ne _ _ _ _ hk]; exact h

theorem mem_keys_iff_lookup {β : Type} (l : List (String × β)) (k : String) :
    k ∈ keysOf l ↔ (lookupA l k).isSome := by
  induction l with
  | nil => simp [keysOf, lookupA]
  | cons p rest ih =>
    by_cases hh : p.1 = k
    · simp [keysOf, lookupA, hh]
    · simp only [keysOf, List.map_cons, List.mem_cons, lookupA, hh, if_false]
      constructor
      · rintro (h | h)
        · exact absurd h.symm hh
        · exact ih.mp h
      · intro h; exact Or.inr (ih.mpr h)

theorem lookup_some_mem {β : Type} (l : List (String × β)) (k : String) (v : β)
    (h : lookupA l k = some v) : (k, v) ∈ l := by
  induction l with
  | nil => simp [lookupA] at h
  | cons p rest ih =>
    by_cases hh : p.1 = k
    · subst hh
      simp [lookupA] at h
      simp [← h]
    · simp [lookupA, hh] at h
      exact List.mem_cons_of_mem _ (ih h)

theorem keys_setA_of_isSome {β : Type} (l : List (String × β)) (k : String) (v : β)
    (h : (lookupA l k).isSome) : keysOf (setA l k v) = keysOf l := by
  induction l with
  | nil => simp [lookupA] at h
  | cons p rest ih =>
    by_cases hh : p.1 = k
    · simp [setA, hh, keysOf]
    · simp only [lookupA, hh, if_false] at h
      simp [setA, hh, keysOf] at ih ⊢
      exact ih h

theorem keys_setA_of_none {β : Type} (l : List (String × β)) (k : String) (v : β)
    (h : lookupA l k = none) : keysOf (setA l k v) = keysOf l ++ [k] := by
  rw [setA_of_lookup_none _ _ _ h]
  simp [keysOf]

theorem nodup_keys_setA {β : Type} (l : List (String × β)) (k : String) (v : β)
    (h : (keysOf l).Nodup) : (keysOf (setA l k v)).Nodup := by
  rcases ho : lookupA l k with _ | w
  · rw [keys_setA_of_none _ _ _ ho]
    refine List.Nodup.append h (List.nodup_singleton k) ?_
    intro a ha hb
    simp at hb
    subst hb
    rw [mem_keys_iff_lookup, ho] at ha
    simp at ha
  · rw [keys_setA_of_isSome _ _ _ (by simp [ho])]
    exact h

theorem mem_setA {β : Type} (l : List (String × β)) (k : String) (v : β) (p : String × β)
    (h : p ∈ setA l k v) : p = (k, v) ∨ p ∈ l := by
  induction l with
  | nil => simp [setA] at h; simp [h]
  | cons q rest ih =>
    by_cases hh : q.1 = k
    · simp [setA, hh] at h
      rcases h with h | h
      · subst h
        rcases q with ⟨q1, q2⟩
        simp at hh
        subst hh
        exact Or.inl rfl
      · exact Or.inr (List.mem_cons_of_mem _ h)
    · simp only [setA, hh, if_false, List.mem_cons] at h
      rcases h with h | h
      · exact Or.inr (by simp [h])
      · rcases ih h with h' | h'
        · exact Or.inl h'
        · exact Or.inr (List.mem_cons_of_mem _ h')

-- ---- initCounts lemmas ----

theorem initCounts_lookup_some (cs : List (String × Nat)) (opts : List String)
    (k : String) (v : Nat) (h : lookupA cs k = some v) :
    lookupA (initCounts cs opts) k = some v := by
  induction opts generalizing cs with
  | nil => exact h
  | cons o rest ih =>
    rcases ho : lookupA cs o with _ | w
    · simp only [initCounts, ho]
      apply ih
      by_cases hk : k = o
      · subst hk; rw [ho] at h; cases h
      · rw [lookupA_setA_ne _ _ _ _ hk]; exact h
    · simp only [initCounts, ho]
      exact ih _ h

theorem initCounts_isSome (cs : List (String × Nat)) (opts : List String)
    (k : String) (h : (lookupA cs k).isSome) :
    (lookupA (initCounts cs opts) k).isSome := by
  rcases ho : lookupA cs k with _ | v
  · rw [ho] at h; simp at h
  · rw [initCounts_lookup_some cs opts k v ho]; rfl

theorem initCounts_isSome_of_mem (cs : List (String × Nat)) (opts : List String)
    (k : String) (h : k ∈ opts) : (lookupA (initCounts cs opts) k).isSome := by
  induction opts generalizing cs with
  | nil => cases h
  | cons o rest ih =>
    rcases List.mem_cons.mp h with h' | h'
    · subst h'
      rcases ho : lookupA cs k with _ | v
      · simp only [initCounts, ho]
        exact initCounts_isSome _ _ _ (by rw [lookupA_setA_self]; rfl)
      · simp only [initCounts, ho]
        exact initCounts_isSome _ _ _ (by rw [ho]; rfl)
    · rcases ho : lookupA cs o with _ | v
      · simp only [initCounts, ho]; exact ih _ h'
      · simp only [initCounts, ho]; exact ih _ h'

theorem initCounts_lookup_inv (cs : List (String × Nat)) (opts : List String)
    (k : String) (v : Nat) (h : lookupA (initCounts cs opts) k = some v) :
    lookupA cs k = some v ∨ (v = 0 ∧ lookupA cs k = none) := by
  induction opts generalizing cs with
  | nil => exact Or.inl h
  | cons o rest ih =>
    rcases ho : lookupA cs o with _ | w
    · simp only [initCounts, ho] at h
      rcases ih _ h with h' | h'
      · by_cases hk : k = o
        · subst hk
          rw [lookupA_setA_self] at h'
          exact Or.inr ⟨by injection h'; omega, ho⟩
        · rw [lookupA_setA_ne _ _ _ _ hk] at h'
          exact Or.inl h'
      · by_cases hk : k = o
        · subst hk
          rw [lookupA_setA_self] at h'
          cases h'.2
        · rw [lookupA_setA_ne _ _ _ _ hk] at h'
          exact Or.inr h'
    · simp only [initCounts, ho] at h
      exact ih _ h

theorem initCounts_keys_nodup (cs : List (String × Nat)) (opts : List String)
    (h : (keysOf cs).Nodup) : (keysOf (initCounts cs opts)).Nodup := by
  induction opts generalizing cs with
  | nil => exact h
  | cons o rest ih =>
    rcases ho : lookupA cs o with _ | w
    · simp only [initCounts, ho]
      exact ih _ (nodup_keys_setA _ _ _ h)
    · simp only [initCounts, ho]
      exact ih _ h

theorem initCounts_eq_self (cs : List (String × Nat)) (opts : List String)
    (h : ∀ k ∈ opts, (lookupA cs k).isSome) : initCounts cs opts = cs := by
  induction opts with
  | nil => rfl
  | cons o rest ih =>
    rcases ho : lookupA cs o with _ | w
    · have := h o (by simp)
      rw [ho] at this; simp at this
    · simp only [initCounts, ho]
      exact ih (fun k hk => h k (List.mem_cons_of_mem _ hk))

-- ---- countsOfChoice lemmas ----

theorem countsOfChoice_append (l1 l2 : List (String × String)) (c : String) :
    countsOfChoice (l1 ++ l2) c = countsOfChoice l1 c + countsOfChoice l2 c := by
  simp [countsOfChoice, List.filter_append]

theorem countsOfChoice_nil (c : String) : countsOfChoice [] c = 0 := rfl

theorem countsOfChoice_cons (q : String × String) (l : List (String × String)) (k : String) :
    countsOfChoice (q :: l) k = (if q.2 = k then 1 else 0) + countsOfChoice l k := by
  simp only [countsOfChoice, List.filter_cons]
  by_cases hq : q.2 = k
  · simp [hq]; omega
  · simp [hq]

theorem countsOfChoice_singleton (t c k : String) :
    countsOfChoice [(t, c)] k = if c = k then 1 else 0 := by
  rw [countsOfChoice_cons, countsOfChoice_nil]
  simp

theorem countsOfChoice_setA_new (bt : List (String × String)) (t c k : String)
    (h : lookupA bt t = none) :
    countsOfChoice (setA bt t c) k = countsOfChoice bt k + (if c = k then 1 else 0) := by
  rw [setA_of_lookup_none _ _ _ h, countsOfChoice_append, countsOfChoice_singleton]

theorem countsOfChoice_setA_replace (bt : List (String × String)) (t c p k : String)
    (hnd : (keysOf bt).Nodup) (h : lookupA bt t = some p) :
    countsOfChoice (setA bt t c) k + (if p = k then 1 else 0) =
      countsOfChoice bt k + (if c = k then 1 else 0) := by
  induction bt with
  | nil => simp [lookupA] at h
  | cons q rest ih =>
    by_cases hh : q.1 = t
    · have hset : setA (q :: rest) t c = (t, c) :: rest := by simp [setA, hh]
      have hqp : q.2 = p := by
        simp [lookupA, hh] at h
        exact h
      rw [hset, countsOfChoice_cons, countsOfChoice_cons, hqp]
      simp only [Prod.snd]
      omega
    · have hset : setA (q :: rest) t c = q :: setA rest t c := by simp [setA, hh]
      rw [hset, countsOfChoice_cons, countsOfChoice_cons]
      simp [lookupA, hh] at h
      simp only [keysOf, List.map_cons, List.nodup_cons] at hnd
      have := ih hnd.2 h
      omega

theorem countsOfChoice_pos_iff (bt : List (String × String)) (k : String) :
    0 < countsOfChoice bt k ↔ ∃ p ∈ bt, p.2 = k := by
  rw [countsOfChoice, List.length_pos]
  constructor
  · intro h
    rcases List.exists_mem_of_ne_nil _ h with ⟨p, hp⟩
    exact ⟨p, List.mem_of_mem_filter hp, by simpa using List.of_mem_filter hp⟩
  · rintro ⟨p, hp, hk⟩
    intro hnil
    have hmem : p ∈ List.filter (fun q => q.2 == k) bt :=
      List.mem_filter.mpr ⟨hp, by simp [hk]⟩
    rw [hnil] at hmem
    cases hmem

-- ---- decPrevChoice / incChoice lemmas ----

theorem incChoice_eq (cs : List (String × Nat)) (c : String) :
    incChoice cs c = setA cs c ((lookupA cs c).getD 0 + 1) := by
  unfold incChoice
  rcases h : lookupA cs c with _ | v
  · simp only [h, Option.getD_none]
    rw [lookupA_setA_self]
    simp only [Option.getD_some]
    rw [setA_setA_same]
  · simp only [h, Option.getD_some]

theorem lookupA_incChoice_self (cs : List (String × Nat)) (c : String) :
    lookupA (incChoice cs c) c = some ((lookupA cs c).getD 0 + 1) := by
  rw [incChoice_eq, lookupA_setA_self]

theorem lookupA_incChoice_ne (cs : List (String × Nat)) (c k : String) (h : k ≠ c) :
    lookupA (incChoice cs c) k = lookupA cs k := by
  rw [incChoice_eq, lookupA_setA_ne _ _ _ _ h]

theorem incChoice_keys_nodup (cs : List (String × Nat)) (c : String)
    (h : (keysOf cs).Nodup) : (keysOf (incChoice cs c)).Nodup := by
  rw [incChoice_eq]; exact nodup_keys_setA _ _ _ h

theorem lookupA_isSome_incChoice (cs : List (String × Nat)) (c k : String)
    (h : (lookupA cs k).isSome) : (lookupA (incChoice cs c) k).isSome := by
  rw [incChoice_eq]; exact lookupA_isSome_setA _ _ _ _ h

theorem decPrevChoice_keys_nodup (cs : List (String × Nat)) (prev : Option String)
    (h : (keysOf cs).Nodup) : (keysOf (decPrevChoice cs prev)).Nodup := by
  rcases prev with _ | p
  · exact h
  · by_cases hp : p = ""
    · simp [decPrevChoice, hp, h]
    · rcases hl : lookupA cs p with _ | n
      · simp [decPrevChoice, hp, hl, h]
      · simp only [decPrevChoice, hp, hl, if_neg hp]
        exact nodup_keys_setA _ _ _ h

theorem lookupA_isSome_decPrevChoice (cs : List (String × Nat)) (prev : Option String)
    (k : String) (h : (lookupA cs k).isSome) :
    (lookupA (decPrevChoice cs prev) k).isSome := by
  rcases prev with _ | p
  · exact h
  · by_cases hp : p = ""
    · simpa [decPrevChoice, hp] using h
    · rcases hl : lookupA cs p with _ | n
      · simpa [decPrevChoice, hp, hl] using h
      · simp only [decPrevChoice, hp, hl, if_neg hp]
        exact lookupA_isSome_setA _ _ _ _ h

-- ---- well-formedness invariant of a VoteState ----

/-- Invariant of the stored `VoteState`: token keys and count keys are
unduplicated, every recorded choice is a non-empty string with an existing
count entry, and every count entry equals the number of tokens currently
recorded for that choice. -/
def WFVoteState (st : VoteState) : Prop :=
  (keysOf st.byToken).Nodup ∧
  (keysOf st.counts).Nodup ∧
  (∀ p ∈ st.byToken, p.2 ≠ "" ∧ (lookupA st.counts p.2).isSome) ∧
  (∀ k n, lookupA st.counts k = some n → n = countsOfChoice st.byToken k)

theorem WF_empty : WFVoteState emptyVoteState := by
  refine ⟨List.nodup_nil, List.nodup_nil, ?_, ?_⟩
  · intro p hp; cases hp
  · intro k n h; cases h

theorem applyVote_WF (st : VoteState) (t c : String) (opts : List String)
    (hwf : WFVoteState st) (hc : c ≠ "") : WFVoteState (applyVote st t c opts) := by
  obtain ⟨h1, h2, h3, h4⟩ := hwf
  have hzeroS : ∀ k, lookupA st.counts k = none → countsOfChoice st.byToken k = 0 := by
    intro k hk
    by_contra hne
    rcases (countsOfChoice_pos_iff st.byToken k).mp (Nat.pos_of_ne_zero hne) with ⟨q, hq, hqk⟩
    have hs := (h3 q hq).2
    rw [hqk, hk] at hs
    simp at hs
  have hzero0 : ∀ k, lookupA (initCounts st.counts opts) k = none →
      countsOfChoice st.byToken k = 0 := by
    intro k hk
    apply hzeroS
    rcases hs : lookupA st.counts k with _ | v
    · rfl
    · rw [initCounts_lookup_some st.counts opts k v hs] at hk
      cases hk
  have hval0 : ∀ k n, lookupA (initCounts st.counts opts) k = some n →
      n = countsOfChoice st.byToken k := by
    intro k n hk
    rcases initCounts_lookup_inv _ _ _ _ hk with h' | ⟨hn0, hnone⟩
    · exact h4 k n h'
    · subst hn0
      exact (hzeroS k hnone).symm
  have hnd0 : (keysOf (initCounts st.counts opts)).Nodup := initCounts_keys_nodup _ _ h2
  rcases hbt : lookupA st.byToken t with _ | p
  · -- fresh token: no previous choice, no decrement
    simp only [applyVote, hbt, decPrevChoice, WFVoteState]
    refine ⟨nodup_keys_setA _ _ _ h1, incChoice_keys_nodup _ _ hnd0, ?_, ?_⟩
    · intro q hq
      rcases mem_setA _ _ _ _ hq with hq' | hq'
      · subst hq'
        exact ⟨hc, by rw [lookupA_incChoice_self]; rfl⟩
      · refine ⟨(h3 q hq').1, ?_⟩
        exact lookupA_isSome_incChoice _ _ _ (initCounts_isSome _ _ _ (h3 q hq').2)
    · intro k n hk
      rw [countsOfChoice_setA_new st.byToken t c k hbt]
      by_cases hkc : k = c
      · subst hkc
        rw [lookupA_incChoice_self] at hk
        injection hk with hk
        rcases hl : lookupA (initCounts st.counts opts) k with _ | v
        · rw [hl] at hk
          have h0 := hzero0 k hl
          simp at hk
          simp [← hk, h0]
        · rw [hl] at hk
          have hv := hval0 k v hl
          simp at hk
          simp [← hk, ← hv]
      · rw [lookupA_incChoice_ne _ _ _ hkc] at hk
        rw [← hval0 k n hk]
        simp [Ne.symm hkc]
  · -- token had a previous choice p
    have hmem : (t, p) ∈ st.byToken := lookup_some_mem _ _ _ hbt
    have hpne : p ≠ "" := (h3 (t, p) hmem).1
    rcases hnp : lookupA (initCounts st.counts opts) p with _ | np
    · -- impossible: the recorded choice always has a count entry
      have := initCounts_isSome st.counts opts p (h3 (t, p) hmem).2
      rw [hnp] at this
      cases this
    have hnpval : np = countsOfChoice st.byToken p := hval0 p np hnp
    have hnppos : 0 < np := by
      rw [hnpval]
      exact (countsOfChoice_pos_iff _ _).mpr ⟨(t, p), hmem, rfl⟩
    have hadd : ∀ k, countsOfChoice (setA st.byToken t c) k + (if p = k then 1 else 0) =
        countsOfChoice st.byToken k + (if c = k then 1 else 0) :=
      fun k => countsOfChoice_setA_replace st.byToken t c p k h1 hbt
    simp only [applyVote, hbt, decPrevChoice, if_neg hpne, hnp, WFVoteState]
    have hnd1 : (keysOf (setA (initCounts st.counts opts) p (np - 1))).Nodup :=
      nodup_keys_setA _ _ _ hnd0
    refine ⟨nodup_keys_setA _ _ _ h1, incChoice_keys_nodup _ _ hnd1, ?_, ?_⟩
    · intro q hq
      rcases mem_setA _ _ _ _ hq with hq' | hq'
      · subst hq'
        exact ⟨hc, by rw [lookupA_incChoice_self]; rfl⟩
      · refine ⟨(h3 q hq').1, ?_⟩
        exact lookupA_isSome_incChoice _ _ _
          (lookupA_isSome_setA _ _ _ _ (initCounts_isSome _ _ _ (h3 q hq').2))
    · intro k n hk
      by_cases hkc : k = c
      · subst hkc
        rw [lookupA_incChoice_self] at hk
        injection hk with hk
        by_cases hpc : p = k
        · -- revote for the same choice: count decremented then incremented back
          subst hpc
          rw [lookupA_setA_self] at hk
          have hp2 := hadd p
          simp only [if_pos rfl] at hp2
          simp at hk
          omega
        · rw [lookupA_setA_ne _ _ _ _ (Ne.symm hpc)] at hk
          have hp2 := hadd k
          rw [if_neg hpc, if_pos rfl] at hp2
          rcases hl : lookupA (initCounts st.counts opts) k with _ | v
          · rw [hl] at hk
            have h0 := hzero0 k hl
            simp at hk
            omega
          · rw [hl] at hk
            have hv := hval0 k v hl
            simp at hk
            omega
      · rw [lookupA_incChoice_ne _ _ _ hkc] at hk
        by_cases hkp : k = p
        · subst hkp
          rw [lookupA_setA_self] at hk
          injection hk with hk
          have hp2 := hadd k
          rw [if_pos rfl, if_neg (fun h => hkc h.symm)] at hp2
          omega
        · rw [lookupA_setA_ne _ _ _ _ hkp] at hk
          have hv := hval0 k n hk
          have hp2 := hadd k
          rw [if_neg (fun h => hkp h.symm), if_neg (fun h => hkc h.symm)] at hp2
          omega
theorem length_filter_split {α : Type} (l : List α) (p : α → Bool) :
    (l.filter p).length + (l.filter (fun a => !(p a))).length = l.length := by
  induction l with
  | nil => rfl
  | cons a rest ih =>
    rcases h : p a with _ | _ <;> simp [List.filter_cons, h] <;> omega

theorem countsOfChoice_filter_ne (bt : List (String × String)) (k m : String)
    (h : k ≠ m) :
    countsOfChoice (bt.filter (fun q => !(q.2 == m))) k = countsOfChoice bt k := by
  induction bt with
  | nil => rfl
  | cons q rest ih =>
    by_cases hq : q.2 = m
    · simp [List.filter_cons, hq, countsOfChoice_cons, Ne.symm h, ih]
    · simp [List.filter_cons, hq, countsOfChoice_cons, ih]

theorem sum_eq_aux : ∀ (cs : List (String × Nat)) (bt : List (String × String)),
    (keysOf cs).Nodup →
    (∀ k n, lookupA cs k = some n → n = countsOfChoice bt k) →
    (∀ p ∈ bt, (lookupA cs p.2).isSome) →
    sumCounts cs = bt.length := by
  intro cs
  induction cs with
  | nil =>
    intro bt _ _ h3
    cases bt with
    | nil => rfl
    | cons p rest =>
      have := h3 p (by simp)
      simp [lookupA] at this
  | cons q rest ih =>
    intro bt hnd hval hsup
    simp only [keysOf, List.map_cons, List.nodup_cons] at hnd
    have hqval : q.2 = countsOfChoice bt q.1 := by
      apply hval q.1 q.2
      simp [lookupA]
    have hrest : sumCounts rest = (bt.filter (fun p => !(p.2 == q.1))).length := by
      apply ih
      · exact hnd.2
      · intro k n hk
        have hkne : k ≠ q.1 := by
          intro hke
          apply hnd.1
          rw [← hke]
          exact (mem_keys_iff_lookup rest k).mpr (by simp [hk])
        have hlk : lookupA (q :: rest) k = some n := by
          simp [lookupA, Ne.symm hkne, hk]
        rw [hval k n hlk]
        exact (countsOfChoice_filter_ne bt k q.1 hkne).symm
      · intro p hp
        have hmem := List.mem_of_mem_filter hp
        have hne : p.2 ≠ q.1 := by
          have := List.of_mem_filter hp
          simpa using this
        have hsp := hsup p hmem
        simpa [lookupA, Ne.symm hne] using hsp
    have hsplit := length_filter_split bt (fun p => p.2 == q.1)
    have : sumCounts (q :: rest) = q.2 + sumCounts rest := by
      simp [sumCounts]
    rw [this, hqval, hrest]
    rw [countsOfChoice] at *
    omega

theorem sum_eq_of_WF (st : VoteState) (hwf : WFVoteState st) :
    sumCounts st.counts = st.byToken.length := by
  obtain ⟨h1, h2, h3, h4⟩ := hwf
  exact sum_eq_aux st.counts st.byToken h2 h4 (fun p hp => (h3 p hp).2)

theorem distinctTokens_eq_length (st : VoteState) (h : (keysOf st.byToken).Nodup) :
    distinctTokens st = st.byToken.length := by
  unfold distinctTokens
  have h' : (st.byToken.map Prod.fst).Nodup := h
  rw [List.Nodup.dedup h']
  exact List.length_map _ _

theorem runVotes_WF (ops : List VoteOp) (hops : ∀ op ∈ ops, op.choice ≠ "") :
    WFVoteState (runVotes ops) := by
  unfold runVotes
  have : ∀ (l : List VoteOp) (st : VoteState), WFVoteState st →
      (∀ op ∈ l, op.choice ≠ "") →
      WFVoteState (l.foldl (fun st op => applyVote st op.token op.choice op.options) st) := by
    intro l
    induction l with
    | nil => intro st h _; exact h
    | cons op rest ih =>
      intro st hst hl
      exact ih _ (applyVote_WF st op.token op.choice op.options hst (hl op (by simp)))
        (fun o ho => hl o (List.mem_cons_of_mem _ ho))
  exact this ops emptyVoteState WF_empty hops

theorem initCounts_getD (cs : List (String × Nat)) (opts : List String) (k : String) :
    (lookupA (initCounts cs opts) k).getD 0 = (lookupA cs k).getD 0 := by
  rcases h : lookupA (initCounts cs opts) k with _ | v
  · rcases hs : lookupA cs k with _ | w
    · rfl
    · rw [initCounts_lookup_some cs opts k w hs] at h
      cases h
  · rcases initCounts_lookup_inv _ _ _ _ h with h' | ⟨h0, hnone⟩
    · simp [h']
    · subst h0
      rw [hnone]
      rfl

theorem applyVote_idem (st : VoteState) (t c : String) (o : List String) (hc : c ≠ "") :
    applyVote (applyVote st t c o) t c o = applyVote st t c o := by
  have hfield1 : (applyVote (applyVote st t c o) t c o).byToken = (applyVote st t c o).byToken := by
    simp only [applyVote]
    exact setA_setA_same _ _ _ _
  have hfield2 : (applyVote (applyVote st t c o) t c o).counts = (applyVote st t c o).counts := by
    have hinit : initCounts (applyVote st t c o).counts o = (applyVote st t c o).counts := by
      apply initCounts_eq_self
      intro k hk
      show (lookupA (incChoice (decPrevChoice (initCounts st.counts o)
        (lookupA st.byToken t)) c) k).isSome
      exact lookupA_isSome_incChoice _ _ _
        (lookupA_isSome_decPrevChoice _ _ _ (initCounts_isSome_of_mem _ _ _ hk))
    show incChoice (decPrevChoice (initCounts (applyVote st t c o).counts o)
      (lookupA (applyVote st t c o).byToken t)) c = (applyVote st t c o).counts
    rw [hinit]
    have hbt1 : lookupA (applyVote st t c o).byToken t = some c := by
      simp only [applyVote]
      exact lookupA_setA_self _ _ _
    rw [hbt1]
    have hcounts : (applyVote st t c o).counts =
        incChoice (decPrevChoice (initCounts st.counts o) (lookupA st.byToken t)) c := rfl
    rw [hcounts]
    rw [show ∀ cs, decPrevChoice cs (some c) =
        (if c = "" then cs else
          match lookupA cs c with
          | some n => setA cs c (n - 1)
          | none => cs) from fun cs => rfl]
    rw [if_neg hc, lookupA_incChoice_self]
    simp only [Nat.add_sub_cancel]
    rw [incChoice_eq, lookupA_setA_self]
    simp only [Option.getD_some]
    rw [setA_setA_same]
    conv_rhs => rw [incChoice_eq]
    rw [incChoice_eq, setA_setA_same]
  cases happ1 : applyVote (applyVote st t c o) t c o
  cases happ2 : applyVote st t c o
  rw [happ1, happ2] at hfield1 hfield2
  simp only at hfield1 hfield2
  rw [hfield1, hfield2]

theorem applyVote_change_vote (st : VoteState) (t c p : String) (opts : List String)
    (hwf : WFVoteState st) (hbt : lookupA st.byToken t = some p) (hpc : p ≠ c) :
    ∃ np, lookupA st.counts p = some np ∧ 0 < np ∧
      lookupA (applyVote st t c opts).counts p = some (np - 1) ∧
      lookupA (applyVote st t c opts).counts c =
        some ((lookupA st.counts c).getD 0 + 1) := by
  obtain ⟨h1, h2, h3, h4⟩ := hwf
  have hmem : (t, p) ∈ st.byToken := lookup_some_mem _ _ _ hbt
  have hpne : p ≠ "" := (h3 (t, p) hmem).1
  rcases hs : lookupA st.counts p with _ | np
  · have := (h3 (t, p) hmem).2
    rw [hs] at this
    cases this
  have hnp0 : lookupA (initCounts st.counts opts) p = some np :=
    initCounts_lookup_some _ _ _ _ hs
  have hnppos : 0 < np := by
    have := h4 p np hs
    rw [this]
    exact (countsOfChoice_pos_iff _ _).mpr ⟨(t, p), hmem, rfl⟩
  refine ⟨np, rfl, hnppos, ?_, ?_⟩
  · show lookupA (incChoice (decPrevChoice (initCounts st.counts opts)
      (lookupA st.byToken t)) c) p = some (np - 1)
    rw [hbt]
    rw [show ∀ cs, decPrevChoice cs (some p) =
        (if p = "" then cs else
          match lookupA cs p with
          | some n => setA cs p (n - 1)
          | none => cs) from fun cs => rfl]
    rw [if_neg hpne, hnp0]
    rw [lookupA_incChoice_ne _ _ _ hpc, lookupA_setA_self]
  · show lookupA (incChoice (decPrevChoice (initCounts st.counts opts)
      (lookupA st.byToken t)) c) c = some _
    rw [hbt]
    rw [show ∀ cs, decPrevChoice cs (some p) =
        (if p = "" then cs else
          match lookupA cs p with
          | some n => setA cs p (n - 1)
          | none => cs) from fun cs => rfl]
    rw [if_neg hpne, hnp0]
    rw [lookupA_incChoice_self, lookupA_setA_ne _ _ _ _ (Ne.symm hpc), initCounts_getD]

-- ---- C4 claim theorems ----

/-- C4, counterexample to the claim as stated: over the sequence
`recordVote(p, "tok1", "", ["A"])` then `recordVote(p, "tok1", "A", ["A"])`
the stored counts sum to 2 while only one distinct token has a recorded
vote, because the JS guard `prev && ...` treats the empty-string previous
choice as falsy and skips the decrement; the old choice's count (key `""`)
is left at 1. -/
theorem setLocalVote_empty_choice_counterexample :
    sumCounts (runVotes [⟨"tok1", "", ["A"]⟩, ⟨"tok1", "A", ["A"]⟩]).counts = 2 ∧
    distinctTokens (runVotes [⟨"tok1", "", ["A"]⟩, ⟨"tok1", "A", ["A"]⟩]) = 1 ∧
    lookupA (runVotes [⟨"tok1", "", ["A"]⟩, ⟨"tok1", "A", ["A"]⟩]).counts "" = some 1 ∧
    ¬ (sumCounts (runVotes [⟨"tok1", "", ["A"]⟩, ⟨"tok1", "A", ["A"]⟩]).counts =
        distinctTokens (runVotes [⟨"tok1", "", ["A"]⟩, ⟨"tok1", "A", ["A"]⟩])) := by
  refine ⟨rfl, rfl, rfl, ?_⟩
  decide

/-- C4 (amended: every recorded choice is a non-empty string — the only
restriction the counterexample forces; the UI filters empty option labels
out before they can be voted).  For every such sequence of
`recordVote(pollId, token, choice, options)` calls on one local poll, the
stored `VoteState` satisfies `sum(counts.values()) =` number of distinct
tokens with at least one recorded vote; re-invoking with the same
`(token, choice)` pair is idempotent (never double-counts), and changing a
token's vote decrements the old choice's count and increments the new
one. -/
theorem setLocalVote_sum_counts_invariant (ops : List VoteOp)
    (hops : ∀ op ∈ ops, op.choice ≠ "") :
    (sumCounts (runVotes ops).counts = distinctTokens (runVotes ops)) ∧
    (∀ st t c o, c ≠ "" → applyVote (applyVote st t c o) t c o = applyVote st t c o) ∧
    (∀ t c o p, lookupA (runVotes ops).byToken t = some p → p ≠ c →
      ∃ np, lookupA (runVotes ops).counts p = some np ∧ 0 < np ∧
        lookupA (applyVote (runVotes ops) t c o).counts p = some (np - 1) ∧
        lookupA (applyVote (runVotes ops) t c o).counts c =
          some ((lookupA (runVotes ops).counts c).getD 0 + 1)) := by
  have hwf := runVotes_WF ops hops
  refine ⟨?_, ?_, ?_⟩
  · rw [sum_eq_of_WF _ hwf, distinctTokens_eq_length _ hwf.1]
  · intro st t c o hc
    exact applyVote_idem st t c o hc
  · intro t c o p hbt hpc
    exact applyVote_change_vote (runVotes ops) t c p o hwf hbt hpc

/-- C4 witness: the amended theorem applied to the concrete two-call
sequence vote `A` then revote `B` for the same token. -/
theorem setLocalVote_sum_counts_invariant_witness :
    sumCounts (runVotes [⟨"t1", "A", ["A", "B"]⟩, ⟨"t1", "B", ["A", "B"]⟩]).counts =
      distinctTokens (runVotes [⟨"t1", "A", ["A", "B"]⟩, ⟨"t1", "B", ["A", "B"]⟩]) :=
  (setLocalVote_sum_counts_invariant
    [⟨"t1", "A", ["A", "B"]⟩, ⟨"t1", "B", ["A", "B"]⟩] (by decide)).1

-- =========================
-- Proof-of-work solver (`solvePowLite`)
-- =========================

/-- Number of leading `'0'` characters of a character list. -/
def zeroRun (l : List Char) : Nat := (l.takeWhile (fun c => c == '0')).length

/-- `sha256(challenge + ":" + candidate).startsWith("0".repeat(difficulty))`.
The hash function (hex SHA-256 in the source, via Web Crypto) is a
parameter of the embedding. -/
def powHashOk (hash : String → String) (challenge : String) (difficulty : Nat)
    (candidate : String) : Bool :=
  startsWithJs (hash (challenge ++ ":" ++ candidate)) (String.mk (List.replicate difficulty '0'))

/-- The `while (true)` loop of `solvePowLite`, made total with explicit
fuel: try the string forms of `nonce, nonce+1, ...` in order and return
the first candidate whose hash has `difficulty` leading zeros.  The source
loop is unbounded (a pathological difficulty stalls forever); a `some`
result of the fuelled version is exactly a terminating run of the loop. -/
def solvePowLite (hash : String → String) (challenge : String) (difficulty : Nat) :
    Nat → Nat → Option String
  | 0, _ => none
  | fuel + 1, nonce =>
      let candidate := toString nonce
      if powHashOk hash challenge difficulty candidate then some candidate
      else solvePowLite hash challenge difficulty fuel (nonce + 1)

theorem isPrefixOf_replicate_zero_iff (d : Nat) (l : List Char) :
    (List.replicate d '0').isPrefixOf l = true ↔ d ≤ zeroRun l := by
  induction d generalizing l with
  | zero => simp [List.isPrefixOf]
  | succ d ih =>
    cases l with
    | nil => simp [List.replicate, List.isPrefixOf, zeroRun]
    | cons c rest =>
      by_cases hc : c = '0'
      · subst hc
        simp only [List.replicate, List.isPrefixOf, List.isPrefixOf_cons₂_self]
        rw [show (('0' : Char) == '0') = true by decide]
        simp only [Bool.true_and]
        rw [ih]
        simp [zeroRun, List.takeWhile]
      · have hzr : zeroRun (c :: rest) = 0 := by
          simp [zeroRun, List.takeWhile, show (c == '0') = false by simp [hc]]
        rw [hzr]
        simp only [List.replicate, List.isPrefixOf]
        rw [show (('0' : Char) == c) = false by simp [Ne.symm hc]]
        simp

theorem solvePowLite_aux (hash : String → String) (challenge : String) (d : Nat) :
    ∀ (fuel nonce : Nat) (res : String),
      solvePowLite hash challenge d fuel nonce = some res →
      ∃ k, nonce ≤ k ∧ res = toString k ∧
        powHashOk hash challenge d (toString k) = true ∧
        ∀ j, nonce ≤ j → j < k → powHashOk hash challenge d (toString j) = false := by
  intro fuel
  induction fuel with
  | zero => intro nonce res h; cases h
  | succ fuel ih =>
    intro nonce res h
    simp only [solvePowLite] at h
    by_cases hok : powHashOk hash challenge d (toString nonce) = true
    · rw [if_pos hok] at h
      injection h with h
      exact ⟨nonce, Nat.le_refl _, h.symm, hok, fun j hj1 hj2 => absurd hj1 (by omega)⟩
    · rw [if_neg hok] at h
      rcases ih (nonce + 1) res h with ⟨k, hk1, hk2, hk3, hk4⟩
      refine ⟨k, by omega, hk2, hk3, ?_⟩
      intro j hj1 hj2
      rcases Nat.eq_or_lt_of_le hj1 with hj | hj
      · subst hj
        exact Bool.not_eq_true _ ▸ (by simpa using hok)
      · exact hk4 j (by omega) hj2

/-- C2: when the solver returns a nonce, that nonce is the string form of
an integer `k`, the hex hash of `challenge ++ ":" ++ toString k` has at
least `difficulty` leading zero characters, and no smaller integer in the
search order `0, 1, 2, ...` satisfies the predicate. -/
theorem solvePowLite_first_satisfying_nonce (hash : String → String)
    (challenge : String) (difficulty : Nat) (fuel : Nat) (res : String)
    (h : solvePowLite hash challenge difficulty fuel 0 = some res) :
    ∃ k : Nat, res = toString k ∧
      difficulty ≤ zeroRun (hash (challenge ++ ":" ++ toString k)).data ∧
      ∀ j < k, zeroRun (hash (challenge ++ ":" ++ toString j)).data < difficulty := by
  rcases solvePowLite_aux hash challenge difficulty fuel 0 res h with ⟨k, _, hres, hok, hmin⟩
  refine ⟨k, hres, ?_, ?_⟩
  · rw [powHashOk, startsWithJs] at hok
    exact (isPrefixOf_replicate_zero_iff _ _).mp hok
  · intro j hj
    have := hmin j (Nat.zero_le _) hj
    rw [powHashOk, startsWithJs] at this
    by_contra hge
    rw [(isPrefixOf_replicate_zero_iff difficulty
      (hash (challenge ++ ":" ++ toString j)).data).mpr (by omega)] at this
    cases this

/-- A fixed hash environment for the C2 witness: every input hashes to
`"0abc"`. -/
def constHash0 : String → String := fun _ => "0abc"

/-- C2 witness: the theorem applied to a concrete terminating run at
difficulty 1, which accepts the very first candidate `"0"`. -/
theorem solvePowLite_first_satisfying_nonce_witness :
    ∃ k : Nat, "0" = toString k ∧
      1 ≤ zeroRun (constHash0 ("c" ++ ":" ++ toString k)).data ∧
      ∀ j < k, zeroRun (constHash0 ("c" ++ ":" ++ toString j)).data < 1 :=
  solvePowLite_first_satisfying_nonce constHash0 "c" 1 1 "0" (by decide)

-- =========================
-- JS values (for heterogeneous payloads)
-- =========================

/-- A JSON-ish JS value as it occurs in Exchange payloads.  Numbers are
modelled as integers (all numeric fields of the documented payloads are
integral weights/counts); arrays other than the stamp `issued` list, which
is modelled as an explicit `List JVal`, do not occur in the embedded
fragments. -/
inductive JVal where
  | jnull
  | jbool (b : Bool)
  | jnum (n : Int)
  | jstr (s : String)
  | jobj (fields : List (String × JVal))
deriving Repr

-- =========================
-- Stamp pool (`exchange_stamps`)
-- =========================

/-- `getExchangeStampPool`: read the stored pool, `filter(Boolean)` drops
empty strings.  (Parse failures yield `[]`; the stored value is modelled
as the list itself.) -/
def getExchangeStampPool (stored : List String) : List String :=
  stored.filter (fun s => s != "")

/-- JS `Set.prototype.add` as seen through `Array.from`: append if not
already present (insertion order preserved). -/
def setInsert (l : List String) (s : String) : List String :=
  if s ∈ l then l else l ++ [s]

/-- `new Set(cur)` followed by `Array.from`: deduplicate keeping first
occurrences. -/
def dedupKeepFirst (l : List String) : List String := l.foldl setInsert []

/-- The element test of `addStampsToPool`:
`typeof s === "string" && s.startsWith("s_")`. -/
def isStampString : JVal → Bool
  | .jstr s => startsWithJs s "s_"
  | _ => false

/-- `addStampsToPool(newStamps)`: merge the issued credentials into the
stored pool, keeping only `"s_"`-prefixed strings and dropping
duplicates. -/
def addStampsToPool (stored : List String) (newStamps : List JVal) : List String :=
  let cur := getExchangeStampPool stored
  let set0 := dedupKeepFirst cur
  newStamps.foldl
    (fun acc v =>
      match v with
      | .jstr s => if startsWithJs s "s_" then setInsert acc s else acc
      | _ => acc)
    set0

/-- The first, immediately shadowed definition of `pickOneStampOrNull`:
take the first stamp and persist the remaining pool (removal-on-pick). -/
def pickOneStampOrNullRemoving (pool : List String) : Option String × List String :=
  match pool with
  | [] => (none, pool)
  | s :: rest => (some s, rest)

/-- The second, effective definition of `pickOneStampOrNull` (JS function
declarations hoist, so this one silently shadows the first): return
`pool[Math.floor(Math.random() * pool.length)]` WITHOUT any write to the
stored pool.  The random draw is modelled by an arbitrary natural `r`
reduced mod the pool length. -/
def pickOneStampOrNull (pool : List String) (r : Nat) : Option String :=
  if pool.isEmpty then none else pool.get? (r % pool.length)

/-- A pool reachable from the empty store by a sequence of
`addStampsToPool` calls (the only writer that adds stamps). -/
def runMints (batches : List (List JVal)) : List String :=
  batches.foldl addStampsToPool []

-- ---- stamp-pool lemmas ----

theorem setInsert_nodup (l : List String) (s : String) (h : l.Nodup) :
    (setInsert l s).Nodup := by
  unfold setInsert
  by_cases hc : s ∈ l
  · simp [hc, h]
  · simp only [hc, if_false]
    refine List.Nodup.append h (List.nodup_singleton s) ?_
    intro a ha hb
    simp at hb
    subst hb
    exact hc ha

theorem setInsert_mem (l : List String) (s x : String) :
    x ∈ setInsert l s ↔ x ∈ l ∨ x = s := by
  unfold setInsert
  by_cases hc : s ∈ l
  · simp only [hc, if_true]
    constructor
    · exact Or.inl
    · rintro (h | h)
      · exact h
      · subst h; exact hc
  · simp [hc]

theorem dedupKeepFirst_spec (l : List String) :
    (dedupKeepFirst l).Nodup ∧ (∀ x, x ∈ dedupKeepFirst l ↔ x ∈ l) := by
  have haux : ∀ (l : List String) (acc : List String), acc.Nodup →
      (l.foldl setInsert acc).Nodup ∧
      (∀ x, x ∈ l.foldl setInsert acc ↔ x ∈ acc ∨ x ∈ l) := by
    intro l
    induction l with
    | nil => intro acc h; exact ⟨h, fun x => by simp⟩
    | cons a rest ih =>
      intro acc h
      have h1 := ih (setInsert acc a) (setInsert_nodup _ _ h)
      refine ⟨h1.1, fun x => ?_⟩
      rw [List.foldl_cons, (h1.2 x), setInsert_mem]
      simp only [List.mem_cons]
      tauto
  have h := haux l [] List.nodup_nil
  refine ⟨h.1, fun x => ?_⟩
  unfold dedupKeepFirst
  rw [h.2 x]
  simp

/-- The fold step of `addStampsToPool`. -/
def addStampStep (acc : List String) (v : JVal) : List String :=
  match v with
  | .jstr s => if startsWithJs s "s_" then setInsert acc s else acc
  | _ => acc

theorem addStampsToPool_eq_foldl (stored : List String) (news : List JVal) :
    addStampsToPool stored news =
      news.foldl addStampStep (dedupKeepFirst (getExchangeStampPool stored)) := rfl

theorem addStampStep_foldl_spec : ∀ (news : List JVal) (acc : List String), acc.Nodup →
    (news.foldl addStampStep acc).Nodup ∧
    (∀ x, x ∈ news.foldl addStampStep acc ↔
      x ∈ acc ∨ (JVal.jstr x ∈ news ∧ startsWithJs x "s_" = true)) := by
  intro news
  induction news with
  | nil => intro acc h; exact ⟨h, fun x => by simp⟩
  | cons v rest ih =>
    intro acc h
    rcases v with _ | b | n | s | fs
    case jstr =>
      by_cases hs : startsWithJs s "s_" = true
      · have h1 := ih (setInsert acc s) (setInsert_nodup _ _ h)
        refine ⟨by simpa [addStampStep, hs] using h1.1, fun x => ?_⟩
        simp only [List.foldl_cons, addStampStep, hs, if_true]
        rw [h1.2 x, setInsert_mem]
        constructor
        · rintro ((hx | hx) | hx)
          · exact Or.inl hx
          · subst hx; exact Or.inr ⟨by simp, hs⟩
          · exact Or.inr ⟨List.mem_cons_of_mem _ hx.1, hx.2⟩
        · rintro (hx | ⟨hx, hpx⟩)
          · exact Or.inl (Or.inl hx)
          · rcases List.mem_cons.mp hx with hx' | hx'
            · injection hx' with hx'
              exact Or.inl (Or.inr hx')
            · exact Or.inr ⟨hx', hpx⟩
      · have h1 := ih acc h
        refine ⟨by simpa [addStampStep, hs] using h1.1, fun x => ?_⟩
        simp only [List.foldl_cons, addStampStep, hs, Bool.false_eq_true, if_false]
        rw [h1.2 x]
        constructor
        · rintro (hx | hx)
          · exact Or.inl hx
          · exact Or.inr ⟨List.mem_cons_of_mem _ hx.1, hx.2⟩
        · rintro (hx | ⟨hx, hpx⟩)
          · exact Or.inl hx
          · rcases List.mem_cons.mp hx with hx' | hx'
            · injection hx' with hx'
              subst hx'
              exact absurd hpx hs
            · exact Or.inr ⟨hx', hpx⟩
    all_goals (
      have h1 := ih acc h
      refine ⟨by simpa [addStampStep] using h1.1, fun x => ?_⟩
      simp only [List.foldl_cons, addStampStep]
      rw [h1.2 x]
      simp)

theorem addStampsToPool_spec (stored : List String) (news : List JVal) :
    (addStampsToPool stored news).Nodup ∧
    (∀ x, x ∈ addStampsToPool stored news ↔
      x ∈ getExchangeStampPool stored ∨
        (JVal.jstr x ∈ news ∧ startsWithJs x "s_" = true)) := by
  rw [addStampsToPool_eq_foldl]
  have hd := dedupKeepFirst_spec (getExchangeStampPool stored)
  have h := addStampStep_foldl_spec news _ hd.1
  exact ⟨h.1, fun x => by rw [h.2 x, hd.2 x]⟩

theorem foldl_addStampStep_no_valid : ∀ (news : List JVal) (acc : List String),
    (∀ v ∈ news, isStampString v = false) → news.foldl addStampStep acc = acc := by
  intro news
  induction news with
  | nil => intro acc _; rfl
  | cons v rest ih =>
    intro acc hno
    have hv := hno v (by simp)
    have hstep : addStampStep acc v = acc := by
      rcases v with _ | b | n | s | fs <;> simp [addStampStep, isStampString] at hv ⊢
      intro hs
      rw [hs] at hv
      cases hv
    rw [List.foldl_cons, hstep]
    exact ih acc (fun w hw => hno w (List.mem_cons_of_mem _ hw))

theorem dedupKeepFirst_eq_self (l : List String) (h : l.Nodup) : dedupKeepFirst l = l := by
  have haux : ∀ (l acc : List String), (∀ x ∈ l, x ∉ acc) → l.Nodup →
      l.foldl setInsert acc = acc ++ l := by
    intro l
    induction l with
    | nil => intro acc _ _; simp
    | cons a rest ih =>
      intro acc hdisj hnd
      have hna : a ∉ acc := fun hmem => hdisj a (by simp) hmem
      rw [List.foldl_cons, setInsert, if_neg hna]
      rw [ih (acc ++ [a]) ?_ (List.Nodup.of_cons hnd)]
      · simp
      · intro x hx
        simp only [List.mem_append, List.mem_singleton]
        rintro (hx' | hx')
        · exact hdisj x (List.mem_cons_of_mem _ hx) hx'
        · subst hx'
          exact (List.nodup_cons.mp hnd).1 hx
  have := haux l [] (by simp) h
  simpa [dedupKeepFirst] using this

-- ---- C10 claim theorem ----

/-- C10: pools built by the mint path are duplicate-free and hold only
`"s_"`-prefixed stamp strings, and an issued list containing no
`"s_"`-prefixed string (e.g. a mint response of only other credential
kinds) leaves the persisted pool unchanged. -/
theorem addStampsToPool_pool_invariants (batches : List (List JVal)) (news : List JVal)
    (hnews : ∀ v ∈ news, isStampString v = false) :
    (runMints batches).Nodup ∧
    (∀ s ∈ runMints batches, startsWithJs s "s_" = true) ∧
    addStampsToPool (runMints batches) news = runMints batches := by
  have hmain : (runMints batches).Nodup ∧
      (∀ s ∈ runMints batches, startsWithJs s "s_" = true) := by
    unfold runMints
    have haux : ∀ (bs : List (List JVal)) (pool : List String), pool.Nodup →
        (∀ s ∈ pool, startsWithJs s "s_" = true) →
        (bs.foldl addStampsToPool pool).Nodup ∧
        (∀ s ∈ bs.foldl addStampsToPool pool, startsWithJs s "s_" = true) := by
      intro bs
      induction bs with
      | nil => intro pool h1 h2; exact ⟨h1, h2⟩
      | cons b rest ih =>
        intro pool h1 h2
        have hspec := addStampsToPool_spec pool b
        apply ih
        · exact hspec.1
        · intro s hs
          rcases (hspec.2 s).mp hs with hs' | hs'
          · exact h2 s (List.mem_of_mem_filter hs')
          · exact hs'.2
    exact haux batches [] List.nodup_nil (by simp)
  refine ⟨hmain.1, hmain.2, ?_⟩
  have hfil : getExchangeStampPool (runMints batches) = runMints batches := by
    apply List.filter_eq_self.mpr
    intro s hs
    have hpre := hmain.2 s hs
    rw [startsWithJs] at hpre
    have hdat : s.data ≠ [] := by
      intro hnil
      rw [hnil] at hpre
      simp [List.isPrefixOf] at hpre
    have hne : s ≠ "" := by
      intro he
      subst he
      exact hdat rfl
    simpa using hne
  rw [addStampsToPool_eq_foldl, hfil, dedupKeepFirst_eq_self _ hmain.1]
  exact foldl_addStampStep_no_valid news _ hnews

/-- C10 witness: the claim theorem at a concrete mint history (one batch
with a duplicate, a non-string and a non-stamp string) and a concrete
all-invalid issued list. -/
theorem addStampsToPool_pool_invariants_witness :
    (runMints [[JVal.jstr "s_a", JVal.jstr "s_a", JVal.jnum 3, JVal.jstr "tok_b"]]).Nodup ∧
    (∀ s ∈ runMints [[JVal.jstr "s_a", JVal.jstr "s_a", JVal.jnum 3, JVal.jstr "tok_b"]],
      startsWithJs s "s_" = true) ∧
    addStampsToPool (runMints [[JVal.jstr "s_a", JVal.jstr "s_a", JVal.jnum 3, JVal.jstr "tok_b"]])
      [JVal.jstr "tok_1", JVal.jnum 5] =
      runMints [[JVal.jstr "s_a", JVal.jstr "s_a", JVal.jnum 3, JVal.jstr "tok_b"]] :=
  addStampsToPool_pool_invariants
    [[JVal.jstr "s_a", JVal.jstr "s_a", JVal.jnum 3, JVal.jstr "tok_b"]]
    [JVal.jstr "tok_1", JVal.jnum 5]
    (by decide)

-- ---- C1 claim theorem ----

/-- C1 (code bug): the effective `pickOneStampOrNull` — the second,
shadowing definition — returns a stamp from the persisted pool without
removing it, so with pool `["s_a"]` every later pick (any random draw)
returns the same stamp `"s_a"` again; the first, shadowed definition
(whose comment documents the anti-replay intent) would have removed it. -/
theorem pickOneStampOrNull_does_not_remove :
    (∀ r : Nat, pickOneStampOrNull (getExchangeStampPool ["s_a"]) r = some "s_a") ∧
    pickOneStampOrNullRemoving ["s_a"] = (some "s_a", []) := by
  constructor
  · intro r
    show pickOneStampOrNull ["s_a"] r = some "s_a"
    rw [pickOneStampOrNull]
    simp [Nat.mod_one]
  · rfl

-- =========================
-- Results normalisation (`normalizeResults`)
-- =========================

/-- JS truthiness of a `JVal` (`NaN` cannot arise in the integer model). -/
def jsTruthy : JVal → Bool
  | .jnull => false
  | .jbool b => b
  | .jnum n => n != 0
  | .jstr s => s != ""
  | .jobj _ => true

/-- Property read `v[k]`: `none` models JS `undefined` (missing key or
non-object base; the bases used below are never `null`/`undefined`). -/
def getField : JVal → String → Option JVal
  | .jobj fs, k => lookupA fs k
  | _, _ => none

/-- `v[k] && typeof v[k] === "object"` (JS `typeof null` is "object" but
`null` is falsy, so only real objects pass). -/
def getObjField (v : JVal) (k : String) : Option (List (String × JVal)) :=
  match getField v k with
  | some (.jobj fs) => some fs
  | _ => none

/-- `typeof v[k] === "number"` -/
def getNumField (v : JVal) (k : String) : Option Int :=
  match getField v k with
  | some (.jnum n) => some n
  | _ => none

/-- `typeof v[k] === "boolean"` -/
def getBoolField (v : JVal) (k : String) : Option Bool :=
  match getField v k with
  | some (.jbool b) => some b
  | _ => none

/-- `const raw = obj || {}` -/
def rawOf (obj : JVal) : JVal :=
  if jsTruthy obj then obj else .jobj []

/-- `const r = raw.results && typeof raw.results === "object" ? raw.results : raw` -/
def rOf (obj : JVal) : JVal :=
  match getObjField (rawOf obj) "results" with
  | some fs => .jobj fs
  | none => rawOf obj

/-- totals: prefer `totals`, else `counts`, nested under `r` then top level. -/
def totalsOf (obj : JVal) : List (String × JVal) :=
  match getObjField (rOf obj) "totals" with
  | some fs => fs
  | none =>
    match getObjField (rOf obj) "counts" with
    | some fs => fs
    | none =>
      match getObjField (rawOf obj) "totals" with
      | some fs => fs
      | none =>
        match getObjField (rawOf obj) "counts" with
        | some fs => fs
        | none => []

def peopleVotedOf (obj : JVal) : Option Int :=
  match getNumField (rOf obj) "people_voted" with
  | some n => some n
  | none => getNumField (rawOf obj) "people_voted"

def totalVotesOf (obj : JVal) : Option Int :=
  match getNumField (rOf obj) "total_votes" with
  | some n => some n
  | none => getNumField (rawOf obj) "total_votes"

def weightsUsedOf (obj : JVal) : Option (List (String × JVal)) :=
  match getObjField (rOf obj) "weights_used" with
  | some fs => some fs
  | none => getObjField (rawOf obj) "weights_used"

def validatedOf (obj : JVal) : Option Bool :=
  match getBoolField (rOf obj) "validated" with
  | some b => some b
  | none => getBoolField (rawOf obj) "validated"

/-- `Number(b) || 0` over the value kinds occurring in totals maps
(numbers; anything non-numeric coerces to 0 — numeric strings are not
part of any documented payload shape and are not modelled). -/
def jsNumOr0 : JVal → Int
  | .jnum n => n
  | .jbool true => 1
  | _ => 0

/-- `Object.values(totals).reduce((a, b) => a + (Number(b) || 0), 0)` -/
def sumTotals (fs : List (String × JVal)) : Int :=
  fs.foldl (fun a p => a + jsNumOr0 p.2) 0

/-- `weights_used && typeof weights_used.sum === "number"` -/
def weightsUsedSumOf (obj : JVal) : Option Int :=
  match weightsUsedOf obj with
  | some fs =>
    match lookupA fs "sum" with
    | some (.jnum n) => some n
    | _ => none
  | none => none

/-- represented weight: `weights_used.sum`, else `r.represented_people`,
else `raw.represented_people`, else `sum(totals)`. -/
def representedWeightOf (obj : JVal) : Int :=
  match weightsUsedSumOf obj with
  | some n => n
  | none =>
    match getNumField (rOf obj) "represented_people" with
    | some n => n
    | none =>
      match getNumField (rawOf obj) "represented_people" with
      | some n => n
      | none => sumTotals (totalsOf obj)

/-- The canonical result shape produced by `normalizeResults`. -/
structure NormalizedResults where
  totals : List (String × JVal)
  people_voted : Option Int
  represented_weight : Int
  total_votes : Option Int
  validated : Option Bool
  weights_used : Option (List (String × JVal))
  raw : JVal

/-- `normalizeResults(obj)`: total on every input value (the source never
throws — every access is guarded), assembling the canonical shape from
the fallback chains above. -/
def normalizeResults (obj : JVal) : NormalizedResults :=
  { totals := totalsOf obj,
    people_voted := peopleVotedOf obj,
    represented_weight := representedWeightOf obj,
    total_votes := totalVotesOf obj,
    validated := validatedOf obj,
    weights_used := weightsUsedOf obj,
    raw := rawOf obj }

-- ---- C9 claim theorem ----

/-- C9: the normaliser is a total function of the input value (never
throws); `people_voted` and `total_votes` are `none` exactly when no
numeric field of that name exists at either level (absent resolves to
null, never 0); `represented_weight` follows the fallback chain
`weights_used.sum` → `represented_people` (nested, then top level) → sum
of the totals values; and the three documented payload shapes — bare
`totals`, bare `counts`, `results.totals` — normalise to the same totals
map. -/
theorem normalizeResults_fallbacks (v : JVal) (t : List (String × JVal)) :
    ((normalizeResults v).people_voted = none ↔
      (getNumField (rOf v) "people_voted" = none ∧
       getNumField (rawOf v) "people_voted" = none)) ∧
    ((normalizeResults v).total_votes = none ↔
      (getNumField (rOf v) "total_votes" = none ∧
       getNumField (rawOf v) "total_votes" = none)) ∧
    (∀ n, weightsUsedSumOf v = some n → (normalizeResults v).represented_weight = n) ∧
    (∀ n, weightsUsedSumOf v = none → getNumField (rOf v) "represented_people" = some n →
      (normalizeResults v).represented_weight = n) ∧
    (∀ n, weightsUsedSumOf v = none → getNumField (rOf v) "represented_people" = none →
      getNumField (rawOf v) "represented_people" = some n →
      (normalizeResults v).represented_weight = n) ∧
    (weightsUsedSumOf v = none → getNumField (rOf v) "represented_people" = none →
      getNumField (rawOf v) "represented_people" = none →
      (normalizeResults v).represented_weight = sumTotals (normalizeResults v).totals) ∧
    ((normalizeResults (.jobj [("totals", .jobj t)])).totals = t ∧
     (normalizeResults (.jobj [("counts", .jobj t)])).totals = t ∧
     (normalizeResults (.jobj [("results", .jobj [("totals", .jobj t)])])).totals = t) := by
  refine ⟨?_, ?_, ?_, ?_, ?_, ?_, ?_, ?_, ?_⟩
  · simp only [normalizeResults, peopleVotedOf]
    rcases h : getNumField (rOf v) "people_voted" with _ | n <;> simp [h]
  · simp only [normalizeResults, totalVotesOf]
    rcases h : getNumField (rOf v) "total_votes" with _ | n <;> simp [h]
  · intro n h
    simp [normalizeResults, representedWeightOf, h]
  · intro n h1 h2
    simp [normalizeResults, representedWeightOf, h1, h2]
  · intro n h1 h2 h3
    simp [normalizeResults, representedWeightOf, h1, h2, h3]
  · intro h1 h2 h3
    simp [normalizeResults, representedWeightOf, h1, h2, h3]
  · simp [normalizeResults, totalsOf, rOf, rawOf, getObjField, getField, jsTruthy, lookupA]
  · simp [normalizeResults, totalsOf, rOf, rawOf, getObjField, getField, jsTruthy, lookupA]
  · simp [normalizeResults, totalsOf, rOf, rawOf, getObjField, getField, jsTruthy, lookupA]

/-- C9 witness: the claim theorem at the concrete payload
`{"results": {"counts": {"1": 2}}, "people_voted": 3}`. -/
theorem normalizeResults_fallbacks_witness :
    (normalizeResults (.jobj [("results", .jobj [("counts", .jobj [("1", .jnum 2)])]),
      ("people_voted", .jnum 3)])).represented_weight =
      sumTotals (normalizeResults (.jobj [("results", .jobj [("counts", .jobj [("1", .jnum 2)])]),
        ("people_voted", .jnum 3)])).totals :=
  ((normalizeResults_fallbacks
    (.jobj [("results", .jobj [("counts", .jobj [("1", .jnum 2)])]),
      ("people_voted", .jnum 3)]) []).2.2.2.2.2.1) rfl rfl rfl

-- =========================
-- =========================
-- HMAC request signing (`buildHmacHeaders`, `exchangeFetchAuthed`)
-- =========================

def hexDigits : List Char := "0123456789abcdef".data

def hexDigit (n : Nat) : Char := hexDigits.getD n '0'

/-- `b.toString(16).padStart(2, "0")` for a `Uint8Array` element
(`b < 256`, so the hex form has at most two digits and the pad yields
exactly two). -/
def byteToHex (b : Nat) : String :=
  String.mk [hexDigit (b / 16 % 16), hexDigit (b % 16)]

/-- `bytesToHex`: `Array.from(bytes).map(b => b.toString(16).padStart(2, "0")).join("")` -/
def bytesToHex (bytes : List Nat) : String :=
  String.mk ((bytes.map (fun b => (byteToHex b).data)).flatten)

/-- `makeNonceHex(byteLen = 12)`: hex of `byteLen` random bytes; the
random bytes are a parameter of the embedding. -/
def makeNonceHex (randomBytes : List Nat) : String := bytesToHex randomBytes

/-- `/^[0-9a-fA-F]$/` on one character. -/
def isHexDigitChar (c : Char) : Bool :=
  ('0' ≤ c && c ≤ '9') || ('a' ≤ c && c ≤ 'f') || ('A' ≤ c && c ≤ 'F')

def hexVal (c : Char) : Nat :=
  if '0' ≤ c ∧ c ≤ '9' then c.toNat - '0'.toNat
  else if 'a' ≤ c ∧ c ≤ 'f' then c.toNat - 'a'.toNat + 10
  else if 'A' ≤ c ∧ c ≤ 'F' then c.toNat - 'A'.toNat + 10
  else 0

def hexPairsToBytes : List Char → List Nat
  | c1 :: c2 :: rest => (hexVal c1 * 16 + hexVal c2) :: hexPairsToBytes rest
  | _ => []

/-- Whitespace as removed by JS `String.prototype.trim` (the forms that
occur in practice). -/
def isJsWs : Char → Bool
  | ' ' | '\t' | '\n' | '\r' => true
  | _ => false

/-- JS `String(hex || "").trim()`. -/
def trimJs (s : String) : String :=
  String.mk (((s.data.dropWhile isJsWs).reverse.dropWhile isJsWs).reverse)

/-- `hexToBytes`: trim, require a non-empty even-length all-hex string,
parse byte pairs; `none` models the `null` return. -/
def hexToBytes (hex : String) : Option (List Nat) :=
  let clean := trimJs hex
  if (!clean.data.isEmpty) && clean.data.all isHexDigitChar && (clean.data.length % 2 == 0)
  then some (hexPairsToBytes clean.data)
  else none

/-- The device identity: `exchange_self_id` / `exchange_signing_key`. -/
structure Creds where
  self_id : String
  signing_key : String
deriving Repr, DecidableEq

/-- The five-field canonical signing base:
`METHOD \n path \n timestamp \n nonce \n bodyHash`. -/
def buildHmacBase (method path ts nonce bodyHash : String) : String :=
  method.toUpper ++ "\n" ++ path ++ "\n" ++ ts ++ "\n" ++ nonce ++ "\n" ++ bodyHash

structure HmacHeaders where
  xSelfId : String
  xTimestamp : String
  xNonce : String
  xSignature : String
deriving Repr, DecidableEq

/-- `bodyObjOrNull == null ? "" : JSON.stringify(bodyObjOrNull)` — the
body is carried as its serialised JSON text (serialisation is the
environment's). -/
def jsBodyText (body : Option String) : String :=
  match body with
  | none => ""
  | some s => s

/-- `buildHmacHeaders(method, path, bodyObjOrNull)`.  `sha256` and the raw
HMAC (over the already hex-decoded key bytes) are environment parameters;
`now` is `Date.now()` in ms; `nonceBytes` are the 12 random bytes of
`makeNonceHex(12)`.  `none` models the two throws: missing identity and a
non-hex signing key. -/
def buildHmacHeaders (sha256 : String → String) (hmacSha256 : List Nat → String → String)
    (creds : Option Creds) (method path : String) (now : Nat) (nonceBytes : List Nat)
    (body : Option String) : Option HmacHeaders :=
  match creds with
  | none => none
  | some c =>
    let ts := toString now
    let nonce := makeNonceHex nonceBytes
    let bodyHash := sha256 (jsBodyText body)
    let base := buildHmacBase method path ts nonce bodyHash
    match hexToBytes c.signing_key with
    | none => none
    | some keyBytes =>
      some { xSelfId := c.self_id, xTimestamp := ts, xNonce := nonce,
             xSignature := hmacSha256 keyBytes base }

/-- `new URL(EXCHANGE_API).pathname.replace(/\/$/, "")` for
`EXCHANGE_API = "https://exchange.breadstandard.com/api"`. -/
def apiPathPfx : String := "/api"

/-- The path `exchangeFetchAuthed` signs: the fixed API path prefix
prepended to the request path (e.g. `"/api/stamp"` for `"/stamp"`). -/
def exchangeSignPath (path : String) : String := apiPathPfx ++ path

/-- `(opts?.method || "GET").toUpperCase()` of `exchangeFetchAuthed`. -/
def jsMethodOf (methodOpt : Option String) : String :=
  (match methodOpt with
    | some m => if m = "" then "GET" else m
    | none => "GET").toUpper

/-- The signing part of `exchangeFetchAuthed(path, opts)`: uppercase the
method and sign the prefixed path. -/
def exchangeFetchAuthedHeaders (sha256 : String → String)
    (hmacSha256 : List Nat → String → String) (creds : Option Creds)
    (methodOpt : Option String) (path : String) (now : Nat) (nonceBytes : List Nat)
    (body : Option String) : Option HmacHeaders :=
  buildHmacHeaders sha256 hmacSha256 creds (jsMethodOf methodOpt) (exchangeSignPath path)
    now nonceBytes body

-- ---- C3 helper lemmas ----

theorem splitNl_unique (x : List Char) : ∀ (x' y y' : List Char),
    '\n' ∉ x → '\n' ∉ x' →
    x ++ '\n' :: y = x' ++ '\n' :: y' → x = x' ∧ y = y' := by
  induction x with
  | nil =>
    intro x' y y' hx hx' h
    cases x' with
    | nil => simpa using h
    | cons a rest =>
      simp only [List.nil_append, List.cons_append, List.cons.injEq] at h
      exact absurd (by rw [h.1]; simp : '\n' ∈ a :: rest) hx'
  | cons a rest ih =>
    intro x' y y' hx hx' h
    cases x' with
    | nil =>
      simp only [List.cons_append, List.nil_append, List.cons.injEq] at h
      exact absurd (by rw [← h.1]; simp : '\n' ∈ a :: rest) hx
    | cons a' rest' =>
      simp only [List.cons_append, List.cons.injEq] at h
      obtain ⟨ha, hrest⟩ := h
      have hres := ih rest' y y' (fun hm => hx (List.mem_cons_of_mem _ hm))
        (fun hm => hx' (List.mem_cons_of_mem _ hm)) hrest
      exact ⟨by rw [ha, hres.1], hres.2⟩

theorem joinFive_unique (a b c d e a' b' c' d' e' : List Char)
    (ha : '\n' ∉ a) (hb : '\n' ∉ b) (hc : '\n' ∉ c) (hd : '\n' ∉ d)
    (ha' : '\n' ∉ a') (hb' : '\n' ∉ b') (hc' : '\n' ∉ c') (hd' : '\n' ∉ d')
    (h : a ++ '\n' :: (b ++ '\n' :: (c ++ '\n' :: (d ++ '\n' :: e))) =
         a' ++ '\n' :: (b' ++ '\n' :: (c' ++ '\n' :: (d' ++ '\n' :: e')))) :
    a = a' ∧ b = b' ∧ c = c' ∧ d = d' ∧ e = e' := by
  obtain ⟨h1, hrest1⟩ := splitNl_unique a a' _ _ ha ha' h
  obtain ⟨h2, hrest2⟩ := splitNl_unique b b' _ _ hb hb' hrest1
  obtain ⟨h3, hrest3⟩ := splitNl_unique c c' _ _ hc hc' hrest2
  obtain ⟨h4, hrest4⟩ := splitNl_unique d d' _ _ hd hd' hrest3
  exact ⟨h1, h2, h3, h4, hrest4⟩

theorem buildHmacBase_data (method path ts nonce bodyHash : String) :
    (buildHmacBase method path ts nonce bodyHash).data =
      method.toUpper.data ++ '\n' :: (path.data ++ '\n' :: (ts.data ++ '\n' ::
        (nonce.data ++ '\n' :: bodyHash.data))) := by
  simp [buildHmacBase, String.data_append]

theorem hexDigit_isHex (n : Nat) (h : n < 16) : isHexDigitChar (hexDigit n) = true := by
  interval_cases n <;> decide

theorem byteToHex_length (b : Nat) : (byteToHex b).data.length = 2 := rfl

theorem byteToHex_isHex (b : Nat) : ∀ ch ∈ (byteToHex b).data, isHexDigitChar ch = true := by
  intro ch hch
  have h1 : b / 16 % 16 < 16 := Nat.mod_lt _ (by omega)
  have h2 : b % 16 < 16 := Nat.mod_lt _ (by omega)
  have hch' : ch ∈ [hexDigit (b / 16 % 16), hexDigit (b % 16)] := hch
  simp only [List.mem_cons, List.not_mem_nil, or_false] at hch'
  rcases hch' with h | h
  · subst h; exact hexDigit_isHex _ h1
  · subst h; exact hexDigit_isHex _ h2

theorem bytesToHex_length (bytes : List Nat) :
    (bytesToHex bytes).length = 2 * bytes.length := by
  have hflat : ∀ l : List Nat,
      ((l.map (fun b => (byteToHex b).data)).flatten).length = 2 * l.length := by
    intro l
    induction l with
    | nil => rfl
    | cons b rest ih =>
      simp only [List.map_cons, List.flatten_cons, List.length_append, ih,
        byteToHex_length, List.length_cons]
      omega
  exact hflat bytes

theorem bytesToHex_isHex (bytes : List Nat) :
    ∀ ch ∈ (bytesToHex bytes).data, isHexDigitChar ch = true := by
  intro ch hch
  simp only [bytesToHex, List.mem_flatten, List.mem_map] at hch
  rcases hch with ⟨l, ⟨b, _, hbl⟩, hchl⟩
  subst hbl
  exact byteToHex_isHex b ch hchl

theorem bytesToHex_no_nl (bytes : List Nat) : '\n' ∉ (bytesToHex bytes).data := by
  intro h
  have := bytesToHex_isHex bytes '\n' h
  cases this

theorem digitChar_ne_nl (m : Nat) : Nat.digitChar m ≠ '\n' := by
  by_cases hm : m < 16
  · interval_cases m <;> decide
  · have h : Nat.digitChar m = '*' := by
      unfold Nat.digitChar
      repeat rw [if_neg (by omega)]
    rw [h]
    decide

theorem toDigitsCore_mem (b : Nat) : ∀ (fuel n : Nat) (acc : List Char),
    ∀ c ∈ Nat.toDigitsCore b fuel n acc, c ∈ acc ∨ ∃ m, c = Nat.digitChar m := by
  intro fuel
  induction fuel with
  | zero => intro n acc c hc; exact Or.inl hc
  | succ fuel ih =>
    intro n acc c hc
    simp only [Nat.toDigitsCore] at hc
    by_cases hz : n / b = 0
    · rw [if_pos hz] at hc
      rcases List.mem_cons.mp hc with h | h
      · exact Or.inr ⟨n % b, h⟩
      · exact Or.inl h
    · rw [if_neg hz] at hc
      rcases ih (n / b) (Nat.digitChar (n % b) :: acc) c hc with h | h
      · rcases List.mem_cons.mp h with h' | h'
        · exact Or.inr ⟨n % b, h'⟩
        · exact Or.inl h'
      · exact Or.inr h

theorem natToString_no_nl (n : Nat) : '\n' ∉ (toString n).data := by
  intro h
  have hh : '\n' ∈ Nat.toDigits 10 n := h
  rcases toDigitsCore_mem 10 (n + 1) n [] '\n' hh with h' | ⟨m, hm⟩
  · cases h'
  · exact digitChar_ne_nl m hm.symm

-- ---- C3 claim theorem ----

/-- C3: for every method, path, timestamp, 12-byte nonce draw and body
(possibly null), when the identity is present with a hex signing key the
signed-request builder produces headers whose signature is the HMAC,
under the decoded stored signing key, of the canonical base
`buildHmacBase` over the uppercased method, the signed path — on the
`exchangeFetchAuthed` path the fixed `/api` prefix plus the request
path — the decimal millisecond timestamp, the fresh hex nonce, and the
SHA-256 of the serialised body (of the empty string for a null body).
The base is exactly five newline-joined fields: they are uniquely
recoverable from it, and the nonce is 24 hex characters, i.e. at least 12
random bytes hex-encoded. -/
theorem buildHmacHeaders_canonical_base (sha256 : String → String)
    (hmacSha256 : List Nat → String → String) (c : Creds) (methodOpt : Option String)
    (path : String) (now : Nat) (nonceBytes : List Nat) (body : Option String)
    (keyBytes : List Nat) (hkey : hexToBytes c.signing_key = some keyBytes)
    (hnb : nonceBytes.length = 12) :
    ∃ h : HmacHeaders,
      exchangeFetchAuthedHeaders sha256 hmacSha256 (some c) methodOpt path now nonceBytes body =
        some h ∧
      h.xSelfId = c.self_id ∧
      h.xTimestamp = toString now ∧
      h.xNonce = makeNonceHex nonceBytes ∧
      h.xNonce.length = 24 ∧
      (∀ ch ∈ h.xNonce.data, isHexDigitChar ch = true) ∧
      h.xSignature = hmacSha256 keyBytes
        (buildHmacBase (jsMethodOf methodOpt) (exchangeSignPath path) (toString now)
          (makeNonceHex nonceBytes) (sha256 (jsBodyText body))) ∧
      (body = none → sha256 (jsBodyText body) = sha256 "") ∧
      (∀ m2 p2 t2 n2 b2 : String,
        '\n' ∉ (jsMethodOf methodOpt).toUpper.data →
        '\n' ∉ (exchangeSignPath path).data →
        '\n' ∉ (sha256 (jsBodyText body)).data →
        '\n' ∉ m2.data → '\n' ∉ p2.data → '\n' ∉ t2.data → '\n' ∉ n2.data →
        (buildHmacBase (jsMethodOf methodOpt) (exchangeSignPath path) (toString now)
          (makeNonceHex nonceBytes) (sha256 (jsBodyText body))).data =
          m2.data ++ '\n' :: (p2.data ++ '\n' :: (t2.data ++ '\n' ::
            (n2.data ++ '\n' :: b2.data))) →
        m2.data = (jsMethodOf methodOpt).toUpper.data ∧
        p2.data = (exchangeSignPath path).data ∧
        t2.data = (toString now).data ∧
        n2.data = (makeNonceHex nonceBytes).data ∧
        b2.data = (sha256 (jsBodyText body)).data) := by
  have hrun : exchangeFetchAuthedHeaders sha256 hmacSha256 (some c) methodOpt path now
      nonceBytes body =
      some { xSelfId := c.self_id, xTimestamp := toString now,
             xNonce := makeNonceHex nonceBytes,
             xSignature := hmacSha256 keyBytes
               (buildHmacBase (jsMethodOf methodOpt) (exchangeSignPath path) (toString now)
                 (makeNonceHex nonceBytes) (sha256 (jsBodyText body))) } := by
    simp only [exchangeFetchAuthedHeaders, buildHmacHeaders, hkey]
  refine ⟨_, hrun, rfl, rfl, rfl, ?_, ?_, rfl, ?_, ?_⟩
  · show (makeNonceHex nonceBytes).length = 24
    rw [makeNonceHex, bytesToHex_length, hnb]
  · show ∀ ch ∈ (makeNonceHex nonceBytes).data, isHexDigitChar ch = true
    exact bytesToHex_isHex nonceBytes
  · intro hb
    subst hb
    rfl
  · intro m2 p2 t2 n2 b2 hm hp hsha hm2 hp2 ht2 hn2 heq
    rw [buildHmacBase_data] at heq
    have hres := joinFive_unique m2.data p2.data t2.data n2.data b2.data _ _ _ _ _
      hm2 hp2 ht2 hn2 hm hp (natToString_no_nl now) (bytesToHex_no_nl nonceBytes) heq.symm
    exact ⟨hres.1, hres.2.1, hres.2.2.1, hres.2.2.2.1, hres.2.2.2.2⟩

/-- C3 witness: the claim theorem at a concrete identity (hex key
`"aabb"`), method `"post"`, path `"/stamp"`, timestamp 1700000000000,
twelve zero bytes of randomness and a null body. -/
theorem buildHmacHeaders_canonical_base_witness :
    ∃ h : HmacHeaders,
      exchangeFetchAuthedHeaders constHash0 (fun _ _ => "sig")
        (some ⟨"id1", "aabb"⟩) (some "post") "/stamp" 1700000000000
        [0, 0, 0, 0, 0, 0, 0, 0, 0, 0, 0, 0] none = some h ∧
      h.xSelfId = "id1" ∧
      h.xTimestamp = toString 1700000000000 ∧
      h.xNonce = makeNonceHex [0, 0, 0, 0, 0, 0, 0, 0, 0, 0, 0, 0] ∧
      h.xNonce.length = 24 := by
  rcases buildHmacHeaders_canonical_base constHash0 (fun _ _ => "sig")
    ⟨"id1", "aabb"⟩ (some "post") "/stamp" 1700000000000
    [0, 0, 0, 0, 0, 0, 0, 0, 0, 0, 0, 0] none [0xaa, 0xbb] (by decide) (by decide) with
    ⟨h, h1, h2, h3, h4, h5, _⟩
  exact ⟨h, h1, h2, h3, h4, h5⟩

-- =========================
-- Client state, network environment, event traces
-- =========================

/-- A local draft poll (`breadpoll_local_polls_v1` entry).  `created_at`
and the rich-text body do not influence the embedded control flow. -/
structure LocalPoll where
  id : String
  title : String
  poll_type : String
  options : List String
  is_local : Bool
  created_local_id : Option String
deriving Repr, DecidableEq

/-- A poll option as delivered in payloads: a bare label (local drafts)
or an object `{id?, label}` (remote polls). -/
inductive JOpt where
  | bare (label : String)
  | obj (id : Option String) (label : String)
deriving Repr, DecidableEq

/-- `o?.label ?? o` as compared against a choice label. -/
def JOpt.labelOf : JOpt → String
  | .bare l => l
  | .obj _ l => l

/-- A remote Exchange poll as it appears in `GET /polls` and in the
creation response (the fields the embedded control flow reads). -/
structure RemotePoll where
  id : String
  created_at : String
  created_local_id : Option String
  options : List JOpt
deriving Repr, DecidableEq

/-- `String(p?.meta?.created_local_id || "")`. -/
def RemotePoll.matchKey (p : RemotePoll) : String :=
  match p.created_local_id with
  | some s => s
  | none => ""

/-- The poll argument of `castExchangeVoteByLabel`, with the id-bearing
fields it probes in order. -/
structure VPoll where
  id : String
  meta_exchange_poll_id : Option String
  meta_exchange_id : Option String
  exchange_poll_id : Option String
  exchange_id : Option String
  options : List JOpt
deriving Repr, DecidableEq

/-- `a || b || ... || last` over possibly-missing strings (empty strings
are falsy). -/
def firstTruthy : List (Option String) → String → String
  | [], dflt => dflt
  | some s :: rest, dflt => if s = "" then firstTruthy rest dflt else s
  | none :: rest, dflt => firstTruthy rest dflt

/-- `poll?.meta?.exchange_poll_id || poll?.meta?.exchange_id ||
poll?.exchange_poll_id || poll?.exchange_id || poll?.id`. -/
def VPoll.effectivePollId (p : VPoll) : String :=
  firstTruthy [p.meta_exchange_poll_id, p.meta_exchange_id,
    p.exchange_poll_id, p.exchange_id] p.id

/-- A remote poll as passed to the vote function (its meta carries no
exchange id aliases, so the effective id is its own id). -/
def RemotePoll.toVPoll (p : RemotePoll) : VPoll :=
  { id := p.id, meta_exchange_poll_id := none, meta_exchange_id := none,
    exchange_poll_id := none, exchange_id := none, options := p.options }

/-- The whole device-local store threaded through the operations. -/
structure St where
  localPolls : List LocalPoll
  votesAll : List (String × VoteState)
  tokens : List (String × String)
  stamps : List String
  personaId : Option String
  remoteLastChoice : List (String × String)
  identity : Option Creds
deriving Repr, DecidableEq

/-- `getToken(pollId)`: `t[pollId] || null` (an empty stored token is
falsy). -/
def getToken (tokens : List (String × String)) (pollId : String) : Option String :=
  match lookupA tokens pollId with
  | some t => if t = "" then none else some t
  | none => none

/-- The parsed body of a `POST /stamp` response. -/
structure MintResp where
  persona_id : Option String
  issued : List JVal
deriving Repr

/-- A vote response: HTTP success flag, status, and the `voter_token`
field of the parsed body (`none` when absent or unparseable). -/
structure VoteResp where
  ok : Bool
  status : Nat
  voter_token : Option String
  body : String
deriving Repr, DecidableEq

/-- Network/randomness environment of one `castExchangeVoteByLabel` run. -/
structure VoteEnv where
  voteMint : Option MintResp
  rand1 : Nat
  resp1 : VoteResp
  retryMint : Option MintResp
  rand2 : Nat
  resp2 : VoteResp
deriving Repr

/-- The credential header a vote request carries. -/
inductive Cred where
  | stamp (s : String)
  | voterToken (t : String)
deriving Repr, DecidableEq

/-- Events of a run (network calls and the pool clear). -/
inductive Ev where
  | mint
  | listPolls
  | createPoll
  | vote (pollId : String) (option_id : String) (cred : Cred)
  | clearPool
deriving Repr, DecidableEq

inductive VoteOutcome where
  | ok
  | err (e : String)
deriving Repr, DecidableEq

/-- `fetchStampsFromExchange` body after the signed `POST /stamp`:
store `persona_id` when truthy, merge a non-empty `issued` array into
the pool.  (The side stats keys for the Settings page are outside the
model.) -/
def applyMintResp (st : St) (m : MintResp) : St :=
  let st1 :=
    match m.persona_id with
    | some p => if p = "" then st else { st with personaId := some p }
    | none => st
  if m.issued.isEmpty then st1
  else { st1 with stamps := addStampsToPool st1.stamps m.issued }

/-- `clearExchangeStampPool()`: remove the pool and the persona id. -/
def clearExchangeStampPool (st : St) : St :=
  { st with stamps := [], personaId := none }

/-- `getOrFetchOneStampOrNull()`: pick from the pool if non-empty; else,
with an identity present, mint once (failure caught → null) and pick from
the refreshed pool. -/
def getOrFetchOneStampOrNull (st : St) (mintResp : Option MintResp) (r : Nat) :
    St × List Ev × Option String :=
  let pool := getExchangeStampPool st.stamps
  if !pool.isEmpty then (st, [], pickOneStampOrNull pool r)
  else
    match st.identity with
    | none => (st, [], none)
    | some _ =>
      match mintResp with
      | none => (st, [.mint], none)
      | some m =>
        let st1 := applyMintResp st m
        (st1, [.mint], pickOneStampOrNull (getExchangeStampPool st1.stamps) r)

/-- `if (data?.voter_token) setToken(pollId, data.voter_token)`. -/
def setVoterTokenIfAny (tokens : List (String × String)) (pollId : String) :
    Option String → List (String × String)
  | some vt => if vt = "" then tokens else setA tokens pollId vt
  | none => tokens

/-- `String(idx+1)` or the option object's own id. -/
def optionIdAt (opts : List JOpt) (idx : Nat) : String :=
  match opts.get? idx with
  | some (.obj (some i) _) => i
  | _ => toString (idx + 1)

/-- `castExchangeVoteByLabel(poll, choiceLabel)`: resolve the target poll
id, refuse local ids, pick the credential (stored voter token, else a
stamp via `getOrFetchOneStampOrNull`), post the vote; on a 403-rejected
stamp vote clear the pool, re-mint once and retry exactly once; on
success store any returned voter token and the last choice. -/
def castExchangeVoteByLabel (st : St) (env : VoteEnv) (poll : VPoll) (choiceLabel : String) :
    St × List Ev × VoteOutcome :=
  let pollId := poll.effectivePollId
  if startsWithJs pollId "local_" then
    (st, [], .err "local_poll_id_not_valid_on_exchange")
  else if pollId = "" then (st, [], .err "missing poll id")
  else
    match poll.options.findIdx? (fun o => o.labelOf == choiceLabel) with
    | none => (st, [], .err "bad option")
    | some idx =>
      let option_id := optionIdAt poll.options idx
      match getToken st.tokens pollId with
      | some t =>
        -- revote path: X-Voter-Token header
        if env.resp1.ok then
          let st1 := { st with tokens := setVoterTokenIfAny st.tokens pollId env.resp1.voter_token }
          let st2 := { st1 with remoteLastChoice := setA st1.remoteLastChoice pollId choiceLabel }
          (st2, [.vote pollId option_id (.voterToken t)], .ok)
        else
          -- NOTE: no token invalidation happens here, whatever the body says
          (st, [.vote pollId option_id (.voterToken t)],
           .err (if env.resp1.body = "" then toString env.resp1.status else env.resp1.body))
      | none =>
        -- first-vote path: X-Stamp header
        match getOrFetchOneStampOrNull st env.voteMint env.rand1 with
        | (st1, ev1, none) => (st1, ev1, .err "no stamp")
        | (st1, ev1, some stamp) =>
          if env.resp1.ok then
            let st2 := { st1 with tokens := setVoterTokenIfAny st1.tokens pollId env.resp1.voter_token }
            let st3 := { st2 with remoteLastChoice := setA st2.remoteLastChoice pollId choiceLabel }
            (st3, ev1 ++ [.vote pollId option_id (.stamp stamp)], .ok)
          else if env.resp1.status = 403 then
            let stC := clearExchangeStampPool st1
            match getOrFetchOneStampOrNull stC env.retryMint env.rand2 with
            | (st4, ev2, none) =>
              (st4, ev1 ++ [.vote pollId option_id (.stamp stamp)] ++ [.clearPool] ++ ev2,
               .err (if env.resp1.body = "" then toString env.resp1.status else env.resp1.body))
            | (st4, ev2, some stamp2) =>
              if env.resp2.ok then
                let st5 := { st4 with
                  tokens := setVoterTokenIfAny st4.tokens pollId env.resp2.voter_token }
                let st6 := { st5 with
                  remoteLastChoice := setA st5.remoteLastChoice pollId choiceLabel }
                (st6, ev1 ++ [.vote pollId option_id (.stamp stamp)] ++ [.clearPool] ++ ev2 ++
                  [.vote pollId option_id (.stamp stamp2)], .ok)
              else
                (st4, ev1 ++ [.vote pollId option_id (.stamp stamp)] ++ [.clearPool] ++ ev2 ++
                  [.vote pollId option_id (.stamp stamp2)],
                 .err (if env.resp1.body = "" then toString env.resp1.status else env.resp1.body))
          else
            (st1, ev1 ++ [.vote pollId option_id (.stamp stamp)],
             .err (if env.resp1.body = "" then toString env.resp1.status else env.resp1.body))

-- =========================
-- Assertion sync (`assertPollToExchange`)
-- =========================

/-- `ensureLocalToken(pollId)`: reuse the stored token or create and
store `"localtok_" + makeId()` (the fresh id is an environment
parameter). -/
def ensureLocalToken (st : St) (freshId : String) (pollId : String) : St × String :=
  match getToken st.tokens pollId with
  | some t => (st, t)
  | none =>
    let tok := "localtok_" ++ freshId
    ({ st with tokens := setA st.tokens pollId tok }, tok)

/-- `getLocalSelectedChoice(poll)`: the draft's own recorded choice under
its device-local token (`choice ? String(choice) : null`). -/
def getLocalSelectedChoice (st : St) (freshId : String) (lp : LocalPoll) :
    St × Option String :=
  if lp.id = "" then (st, none)
  else
    let (st1, token) := ensureLocalToken st freshId lp.id
    let choice :=
      match lookupA st1.votesAll lp.id with
      | some vs => lookupA vs.byToken token
      | none => none
    (st1,
      match choice with
      | some c => if c = "" then none else some c
      | none => none)

/-- `purgeLocalPollState(localPollId)`: remove the draft, its vote state
and its token entry (no-op on a falsy id). -/
def purgeLocalPollState (st : St) (localPollId : String) : St :=
  if localPollId = "" then st
  else
    { st with
      localPolls := st.localPolls.filter (fun p => p.id != localPollId),
      votesAll := st.votesAll.filter (fun q => q.1 != localPollId),
      tokens := st.tokens.filter (fun q => q.1 != localPollId) }

/-- Lexicographic comparison of code-unit lists; models the ordering
`localeCompare` gives the Exchange's ASCII `created_at` strings. -/
def charListLe (u v : List Char) : Bool :=
  match u, v with
  | [], _ => true
  | _ :: _, [] => false
  | c :: cs, d :: ds => if c < d then true else if d < c then false else charListLe cs ds

def strLeJs (a b : String) : Bool := charListLe a.data b.data

/-- One step of the stable sort
`matches.sort((a, b) => String(b?.created_at || "").localeCompare(String(a?.created_at || "")))`:
insert before the first strictly-smaller element, after ties. -/
def insertByCreatedDesc (p : RemotePoll) : List RemotePoll → List RemotePoll
  | [] => [p]
  | q :: rest =>
    if strLeJs p.created_at q.created_at then q :: insertByCreatedDesc p rest
    else p :: q :: rest

/-- The stable descending sort by `created_at`. -/
def sortByCreatedDesc (l : List RemotePoll) : List RemotePoll :=
  l.foldl (fun acc p => insertByCreatedDesc p acc) []

/-- `String(localPoll?.meta?.created_local_id || pollId)`. -/
def localKeyOf (lp : LocalPoll) : String :=
  match lp.created_local_id with
  | some s => if s = "" then lp.id else s
  | none => lp.id

/-- `!!localPoll?.is_local || String(pollId).startsWith("local_")`. -/
def isLocalDraft (lp : LocalPoll) : Bool :=
  lp.is_local || startsWithJs lp.id "local_"

/-- The `POST /polls` outcome: network/parse throw, non-2xx status,
parsed body without a poll id, or the created poll. -/
inductive CreateResp where
  | errNetwork
  | errStatus (status : Nat)
  | okNoPoll
  | okPoll (p : RemotePoll)
deriving Repr

/-- Environment of one `assertPollToExchange` run. -/
structure AssertEnv where
  freshId : String
  reserveMint : Option MintResp
  listResp : Option (List RemotePoll)
  listResp2 : Option (List RemotePoll)
  voteEnv : VoteEnv
  createResp : CreateResp
deriving Repr

inductive AssertOutcome where
  | alreadyAsserted
  | missingIdentity
  | matchedExisting (remoteId : String)
  | created (remoteId : String)
  | createFailedStatus
  | createFailedNetwork
  | createOkMissingId
deriving Repr, DecidableEq

/-- The best-effort stamp reserve of the assert flow: when the pool is
empty, mint once (a mint failure does not block assertion). -/
def ensureStampReserve (st1 : St) (reserveMint : Option MintResp) : St × List Ev :=
  if (getExchangeStampPool st1.stamps).isEmpty then
    match reserveMint with
    | none => (st1, [Ev.mint])
    | some m => (applyMintResp st1 m, [Ev.mint])
  else (st1, [])

/-- The vote carry-forward of the matched branch: re-fetch the poll list
to get the matched poll's options, cast the recorded local choice against
it (failures visible but not blocking). -/
def assertMatchedVote (st2 : St) (env : AssertEnv) (found : RemotePoll)
    (localChoice : Option String) : St × List Ev :=
  match localChoice with
  | none => (st2, [])
  | some choice =>
    match env.listResp2 with
    | none => (st2, [Ev.listPolls])
    | some polls2 =>
      match polls2.find? (fun p => p.id == found.id) with
      | none => (st2, [Ev.listPolls])
      | some fullRemote =>
        let (stv, evv, _) := castExchangeVoteByLabel st2 env.voteEnv fullRemote.toVPoll choice
        (stv, Ev.listPolls :: evv)

/-- The vote carry-forward of the create branch: cast the recorded local
choice against the freshly created remote poll. -/
def assertCreateVote (st : St) (env : AssertEnv) (p : RemotePoll)
    (localChoice : Option String) : St × List Ev :=
  match localChoice with
  | none => (st, [])
  | some choice =>
    let (stv, evv, _) := castExchangeVoteByLabel st env.voteEnv p.toVPoll choice
    (stv, evv)

/-- The `POST /polls` leg of `assertPollToExchange` (reached when the
merge check finds no match or the index fetch fails).  The posted payload
is built from the draft's title/options/meta; only the correlation tag
affects the control flow modelled here. -/
def assertCreate (st : St) (env : AssertEnv) (pollId : String)
    (localChoice : Option String) (evsSoFar : List Ev) : St × List Ev × AssertOutcome :=
  match env.createResp with
  | .errNetwork => (st, evsSoFar ++ [Ev.createPoll], .createFailedNetwork)
  | .errStatus _ => (st, evsSoFar ++ [Ev.createPoll], .createFailedStatus)
  | .okNoPoll => (st, evsSoFar ++ [Ev.createPoll], .createOkMissingId)
  | .okPoll p =>
    if p.id = "" then (st, evsSoFar ++ [Ev.createPoll], .createOkMissingId)
    else
      let (st3, evVote) := assertCreateVote st env p localChoice
      (purgeLocalPollState st3 pollId, evsSoFar ++ [Ev.createPoll] ++ evVote, .created p.id)

/-- `assertPollToExchange(localPoll)`: require a local draft and an
identity; read the draft's own recorded choice; best-effort stamp
reserve when the pool is empty; idempotent-merge check against
`GET /polls` on `meta.created_local_id` (newest match wins), carrying the
local vote to the match; otherwise `POST /polls` and carry the vote to
the created poll; purge local state only after a live remote target was
matched or created.  (The payload posted is built from the draft's
title/options/meta; only its correlation tag affects the control flow
modelled here.) -/
def assertPollToExchange (st : St) (env : AssertEnv) (lp : LocalPoll) :
    St × List Ev × AssertOutcome :=
  if !isLocalDraft lp then (st, [], .alreadyAsserted)
  else
    match st.identity with
    | none => (st, [], .missingIdentity)
    | some _ =>
      let pollId := lp.id
      let localKey := localKeyOf lp
      let (st1, localChoice) := getLocalSelectedChoice st env.freshId lp
      -- stamp reserve (failure does not block assertion)
      let (st2, evMint) := ensureStampReserve st1 env.reserveMint
      -- idempotent-merge check against the remote poll index
      match env.listResp with
      | some polls =>
        match (sortByCreatedDesc (polls.filter (fun p => p.matchKey == localKey))).head? with
        | some found =>
          let (st3, evVote) := assertMatchedVote st2 env found localChoice
          (purgeLocalPollState st3 pollId, evMint ++ [Ev.listPolls] ++ evVote,
           .matchedExisting found.id)
        | none => assertCreate st2 env pollId localChoice (evMint ++ [Ev.listPolls])
      | none => assertCreate st2 env pollId localChoice (evMint ++ [Ev.listPolls])

-- ---- frame lemmas ----

def isVoteEv : Ev → Bool
  | .vote _ _ _ => true
  | _ => false

def countVotes (evs : List Ev) : Nat := (evs.filter isVoteEv).length

theorem countVotes_nil : countVotes [] = 0 := rfl

theorem countVotes_append (l1 l2 : List Ev) :
    countVotes (l1 ++ l2) = countVotes l1 + countVotes l2 := by
  simp [countVotes, List.filter_append]

theorem countVotes_all_mint (evs : List Ev) (h : ∀ e ∈ evs, e = Ev.mint) :
    countVotes evs = 0 := by
  induction evs with
  | nil => rfl
  | cons e rest ih =>
    have he := h e (by simp)
    subst he
    simp only [countVotes, List.filter_cons]
    rw [show isVoteEv Ev.mint = false from rfl]
    simp only [Bool.false_eq_true, if_false]
    exact ih (fun e' he' => h e' (List.mem_cons_of_mem _ he'))

theorem applyMintResp_frame (st : St) (m : MintResp) :
    (applyMintResp st m).localPolls = st.localPolls ∧
    (applyMintResp st m).votesAll = st.votesAll ∧
    (applyMintResp st m).tokens = st.tokens ∧
    (applyMintResp st m).identity = st.identity := by
  unfold applyMintResp
  rcases m.persona_id with _ | p
  · by_cases hi : m.issued.isEmpty <;> simp [hi]
  · by_cases hq : p = "" <;> by_cases hi : m.issued.isEmpty <;> simp [hq, hi]

theorem getOrFetchOneStampOrNull_frame (st : St) (mr : Option MintResp) (r : Nat) :
    (getOrFetchOneStampOrNull st mr r).1.localPolls = st.localPolls ∧
    (getOrFetchOneStampOrNull st mr r).1.votesAll = st.votesAll ∧
    (getOrFetchOneStampOrNull st mr r).1.tokens = st.tokens ∧
    (getOrFetchOneStampOrNull st mr r).1.identity = st.identity ∧
    (∀ e ∈ (getOrFetchOneStampOrNull st mr r).2.1, e = Ev.mint) := by
  unfold getOrFetchOneStampOrNull
  by_cases hp : (getExchangeStampPool st.stamps).isEmpty
  · rcases hid : st.identity with _ | c
    · simp [hp, hid]
    · rcases mr with _ | m
      · simp [hp, hid]
      · have hf := applyMintResp_frame st m
        simp [hp, hid, hf.1, hf.2.1, hf.2.2.1, hf.2.2.2]
  · simp [hp]

theorem castVote_frame (st : St) (env : VoteEnv) (poll : VPoll) (label : String) :
    (castExchangeVoteByLabel st env poll label).1.localPolls = st.localPolls ∧
    (castExchangeVoteByLabel st env poll label).1.votesAll = st.votesAll ∧
    (castExchangeVoteByLabel st env poll label).1.identity = st.identity ∧
    Ev.createPoll ∉ (castExchangeVoteByLabel st env poll label).2.1 ∧
    Ev.listPolls ∉ (castExchangeVoteByLabel st env poll label).2.1 ∧
    countVotes (castExchangeVoteByLabel st env poll label).2.1 ≤ 2 := by
  rcases hg1 : getOrFetchOneStampOrNull st env.voteMint env.rand1 with ⟨st1, ev1, sOpt⟩
  have hf1 := getOrFetchOneStampOrNull_frame st env.voteMint env.rand1
  rw [hg1] at hf1
  simp only at hf1
  rcases hg2 : getOrFetchOneStampOrNull (clearExchangeStampPool st1) env.retryMint env.rand2
    with ⟨st4, ev2, s2Opt⟩
  have hf2 := getOrFetchOneStampOrNull_frame (clearExchangeStampPool st1) env.retryMint env.rand2
  rw [hg2] at hf2
  simp only [clearExchangeStampPool] at hf2
  have hev1m : ∀ e ∈ ev1, e = Ev.mint := hf1.2.2.2.2
  have hev2m : ∀ e ∈ ev2, e = Ev.mint := hf2.2.2.2.2
  have hev1c : countVotes ev1 = 0 := countVotes_all_mint ev1 hev1m
  have hev2c : countVotes ev2 = 0 := countVotes_all_mint ev2 hev2m
  have hev1c2 : (List.filter isVoteEv ev1).length = 0 := hev1c
  have hev2c2 : (List.filter isVoteEv ev2).length = 0 := hev2c
  have hev1nc : Ev.createPoll ∉ ev1 := fun h => by cases hev1m _ h
  have hev2nc : Ev.createPoll ∉ ev2 := fun h => by cases hev2m _ h
  have hev1nl : Ev.listPolls ∉ ev1 := fun h => by cases hev1m _ h
  have hev2nl : Ev.listPolls ∉ ev2 := fun h => by cases hev2m _ h
  unfold castExchangeVoteByLabel
  rw [hg1]
  by_cases h1 : startsWithJs poll.effectivePollId "local_"
  · simp [h1, countVotes]
  by_cases h2 : poll.effectivePollId = ""
  · simp [h2, show startsWithJs "" "local_" = false from by decide, countVotes]
  rcases hidx : poll.options.findIdx? (fun o => o.labelOf == label) with _ | idx
  · simp [h1, h2, hidx, countVotes]
  rcases htok : getToken st.tokens poll.effectivePollId with _ | t
  · -- first-vote (stamp) path
    rcases sOpt with _ | s1
    · simp [h1, h2, hidx, htok, hf1.1, hf1.2.1, hf1.2.2.2.1, hev1nc, hev1nl, hev1c2,
        countVotes, List.filter_append, isVoteEv]
    by_cases hok : env.resp1.ok
    · simp [h1, h2, hidx, htok, hok, hf1.1, hf1.2.1, hf1.2.2.2.1, hev1nc, hev1nl,
        hev1c2, countVotes, List.filter_append, isVoteEv]
    by_cases h403 : env.resp1.status = 403
    · rcases s2Opt with _ | s2
      · simp [h1, h2, hidx, htok, hok, h403, hg2, hf2.1, hf2.2.1, hf2.2.2.2.1,
          hf1.1, hf1.2.1, hf1.2.2.2.1, hev1nc, hev1nl, hev2nc, hev2nl,
          hev1c2, hev2c2, countVotes, List.filter_append, isVoteEv]
      by_cases hok2 : env.resp2.ok
      · simp [h1, h2, hidx, htok, hok, h403, hok2, hg2, hf2.1, hf2.2.1, hf2.2.2.2.1,
          hf1.1, hf1.2.1, hf1.2.2.2.1, hev1nc, hev1nl, hev2nc, hev2nl,
          hev1c2, hev2c2, countVotes, List.filter_append, isVoteEv]
      · simp [h1, h2, hidx, htok, hok, h403, hok2, hg2, hf2.1, hf2.2.1, hf2.2.2.2.1,
          hf1.1, hf1.2.1, hf1.2.2.2.1, hev1nc, hev1nl, hev2nc, hev2nl,
          hev1c2, hev2c2, countVotes, List.filter_append, isVoteEv]
    · simp [h1, h2, hidx, htok, hok, h403, hf1.1, hf1.2.1, hf1.2.2.2.1, hev1nc, hev1nl,
        hev1c2, countVotes, List.filter_append, isVoteEv]
  · -- revote (token) path
    by_cases hok : env.resp1.ok
    · simp [h1, h2, hidx, htok, hok, countVotes, isVoteEv]
    · simp [h1, h2, hidx, htok, hok, countVotes, isVoteEv]

theorem getLocalSelectedChoice_frame (st : St) (f : String) (lp : LocalPoll) :
    (getLocalSelectedChoice st f lp).1.localPolls = st.localPolls ∧
    (getLocalSelectedChoice st f lp).1.votesAll = st.votesAll ∧
    (getLocalSelectedChoice st f lp).1.stamps = st.stamps ∧
    (getLocalSelectedChoice st f lp).1.identity = st.identity := by
  unfold getLocalSelectedChoice ensureLocalToken
  by_cases hid : lp.id = ""
  · simp [hid]
  · rcases ht : getToken st.tokens lp.id with _ | t
    · simp [hid, ht]
    · simp [hid, ht]

-- ---- C5 claim theorem ----

theorem assertCreate_preserves (st2 : St) (env : AssertEnv) (pollId : String)
    (lc : Option String) (evs0 : List Ev) :
    ∀ st' evs out, assertCreate st2 env pollId lc evs0 = (st', evs, out) →
      (∀ rid, out ≠ AssertOutcome.created rid) →
      st' = st2 := by
  intro st' evs out hrun hnc
  unfold assertCreate at hrun
  rcases hcr : env.createResp with _ | s | _ | p <;> simp only [hcr] at hrun
  · exact (congrArg Prod.fst hrun).symm
  · exact (congrArg Prod.fst hrun).symm
  · exact (congrArg Prod.fst hrun).symm
  · by_cases hpid : p.id = ""
    · rw [if_pos hpid] at hrun
      exact (congrArg Prod.fst hrun).symm
    · rw [if_neg hpid] at hrun
      rcases hcv : assertCreateVote st2 env p lc with ⟨st3, evV⟩
      rw [hcv] at hrun
      have h3 : AssertOutcome.created p.id = out :=
        congrArg (fun x : St × List Ev × AssertOutcome => x.2.2) hrun
      exact absurd h3.symm (hnc p.id)

theorem assertMatchedVote_frame (st2 : St) (env : AssertEnv) (found : RemotePoll)
    (lc : Option String) :
    (assertMatchedVote st2 env found lc).1.localPolls = st2.localPolls ∧
    (assertMatchedVote st2 env found lc).1.votesAll = st2.votesAll ∧
    Ev.createPoll ∉ (assertMatchedVote st2 env found lc).2 := by
  unfold assertMatchedVote
  rcases lc with _ | choice
  · simp
  · rcases hl2 : env.listResp2 with _ | polls2
    · simp [hl2]
    · rcases hfind : polls2.find? (fun p => p.id == found.id) with _ | fullRemote
      · simp [hl2, hfind]
      · rcases hv : castExchangeVoteByLabel st2 env.voteEnv fullRemote.toVPoll choice
          with ⟨stv, evv, res⟩
        have hfr := castVote_frame st2 env.voteEnv fullRemote.toVPoll choice
        rw [hv] at hfr
        simp only at hfr
        simp [hl2, hfind, hv, hfr.1, hfr.2.1]
        intro hmem
        exact hfr.2.2.2.1 hmem

theorem ensureStampReserve_frame (st1 : St) (mr : Option MintResp) :
    (ensureStampReserve st1 mr).1.localPolls = st1.localPolls ∧
    (ensureStampReserve st1 mr).1.votesAll = st1.votesAll ∧
    (ensureStampReserve st1 mr).1.identity = st1.identity ∧
    (∀ e ∈ (ensureStampReserve st1 mr).2, e = Ev.mint) := by
  unfold ensureStampReserve
  by_cases hp : (getExchangeStampPool st1.stamps).isEmpty
  · rcases mr with _ | m
    · simp [hp]
    · have hf := applyMintResp_frame st1 m
      simp [hp, hf.1, hf.2.1, hf.2.2.2]
  · simp [hp]

/-- C5: with no stored identity, asserting a local draft fails with the
missing-identity outcome, performs no network call at all (in particular
no creation call) and leaves the store untouched; and on every run whose
outcome is neither a matched nor a created remote poll, the draft list
and the vote-state store are exactly as before — local state is purged
only after a live remote counterpart was matched or created. -/
theorem assertPoll_failure_preserves_draft (st : St) (env : AssertEnv) (lp : LocalPoll) :
    (isLocalDraft lp = true → st.identity = none →
      assertPollToExchange st env lp = (st, [], .missingIdentity)) ∧
    (∀ st' evs out, assertPollToExchange st env lp = (st', evs, out) →
      (∀ rid, out ≠ AssertOutcome.matchedExisting rid) →
      (∀ rid, out ≠ AssertOutcome.created rid) →
      st'.localPolls = st.localPolls ∧ st'.votesAll = st.votesAll) := by
  constructor
  · intro hl hid
    unfold assertPollToExchange
    simp [hl, hid]
  · intro st' evs out hrun hnm hnc
    by_cases hl : isLocalDraft lp
    case neg =>
      unfold assertPollToExchange at hrun
      simp only [hl, Bool.not_false, if_true, Prod.mk.injEq] at hrun
      obtain ⟨h1, _, _⟩ := hrun
      rw [← h1]
      exact ⟨rfl, rfl⟩
    case pos =>
      rcases hid : st.identity with _ | c
      · unfold assertPollToExchange at hrun
        simp only [hl, hid, Bool.not_true, Bool.false_eq_true, if_false,
          Prod.mk.injEq] at hrun
        obtain ⟨h1, _, _⟩ := hrun
        rw [← h1]
        exact ⟨rfl, rfl⟩
      · rcases hsel : getLocalSelectedChoice st env.freshId lp with ⟨st1, localChoice⟩
        have hfr1 := getLocalSelectedChoice_frame st env.freshId lp
        rw [hsel] at hfr1
        simp only at hfr1
        rcases hres : ensureStampReserve st1 env.reserveMint with ⟨st2, evMint⟩
        have hfr2 := ensureStampReserve_frame st1 env.reserveMint
        rw [hres] at hfr2
        simp only at hfr2
        have hloc2 : st2.localPolls = st.localPolls := by rw [hfr2.1, hfr1.1]
        have hva2 : st2.votesAll = st.votesAll := by rw [hfr2.2.1, hfr1.2.1]
        unfold assertPollToExchange at hrun
        simp only [hl, hid, Bool.not_true, Bool.false_eq_true, if_false, hsel, hres] at hrun
        rcases hlist : env.listResp with _ | polls <;> simp only [hlist] at hrun
        · have := assertCreate_preserves st2 env lp.id localChoice _ st' evs out hrun hnc
          rw [this]
          exact ⟨hloc2, hva2⟩
        · rcases hhead : (sortByCreatedDesc
              (polls.filter (fun p => p.matchKey == localKeyOf lp))).head? with _ | found <;>
            simp only [hhead] at hrun
          · have := assertCreate_preserves st2 env lp.id localChoice _ st' evs out hrun hnc
            rw [this]
            exact ⟨hloc2, hva2⟩
          · have h3 : AssertOutcome.matchedExisting found.id = out :=
              congrArg (fun x : St × List Ev × AssertOutcome => x.2.2) hrun
            exact absurd h3.symm (hnm found.id)

/-- A concrete local draft, failing vote responses, an all-failing assert
environment and a store with no identity, for the C5 witness. -/
def lpLunch : LocalPoll :=
  { id := "local_1", title := "Lunch?", poll_type := "YES_NO",
    options := ["Pizza", "Tacos"], is_local := true, created_local_id := none }

def respFail : VoteResp := { ok := false, status := 500, voter_token := none, body := "" }

def voteEnvNone : VoteEnv :=
  { voteMint := none, rand1 := 0, resp1 := respFail, retryMint := none, rand2 := 0,
    resp2 := respFail }

def assertEnvNone : AssertEnv :=
  { freshId := "f1", reserveMint := none, listResp := none, listResp2 := none,
    voteEnv := voteEnvNone, createResp := .errNetwork }

def stNoIdentity : St :=
  { localPolls := [lpLunch], votesAll := [], tokens := [], stamps := [],
    personaId := none, remoteLastChoice := [], identity := none }

/-- C5 witness: asserting the draft with no identity stored fails with
the missing-identity outcome, makes no network call and leaves the store
unchanged. -/
theorem assertPoll_failure_preserves_draft_witness :
    assertPollToExchange stNoIdentity assertEnvNone lpLunch =
      (stNoIdentity, [], .missingIdentity) :=
  (assertPoll_failure_preserves_draft stNoIdentity assertEnvNone lpLunch).1 (by decide) rfl

-- ---- descending created_at sort lemmas ----

theorem charListLe_cons (x y : Char) (xs ys : List Char) :
    charListLe (x :: xs) (y :: ys) =
      if x < y then true else if y < x then false else charListLe xs ys := rfl

theorem charListLe_refl : ∀ a, charListLe a a = true := by
  intro a
  induction a with
  | nil => rfl
  | cons x xs ih => rw [charListLe_cons]; simp [lt_irrefl, ih]

theorem charListLe_total : ∀ a b, charListLe a b = true ∨ charListLe b a = true := by
  intro a
  induction a with
  | nil => intro b; exact Or.inl rfl
  | cons x xs ih =>
    intro b
    cases b with
    | nil => exact Or.inr rfl
    | cons y ys =>
      rcases lt_trichotomy x y with h | h | h
      · left; rw [charListLe_cons]; simp [h]
      · subst h
        rcases ih ys with h' | h'
        · left; rw [charListLe_cons]; simp [lt_irrefl, h']
        · right; rw [charListLe_cons]; simp [lt_irrefl, h']
      · right; rw [charListLe_cons]; simp [h]

theorem charListLe_trans : ∀ a b c, charListLe a b = true → charListLe b c = true →
    charListLe a c = true := by
  intro a
  induction a with
  | nil => intro b c _ _; rfl
  | cons x xs ih =>
    intro b c hab hbc
    cases b with
    | nil => rw [show charListLe (x :: xs) [] = false from rfl] at hab; cases hab
    | cons y ys =>
      cases c with
      | nil => rw [show charListLe (y :: ys) [] = false from rfl] at hbc; cases hbc
      | cons z zs =>
        rw [charListLe_cons] at hab hbc ⊢
        rcases lt_trichotomy x y with h1 | h1 | h1
        · rcases lt_trichotomy y z with h2 | h2 | h2
          · simp [lt_trans h1 h2]
          · subst h2; simp [h1]
          · rw [if_neg (asymm h2), if_pos h2] at hbc; cases hbc
        · subst h1
          rcases lt_trichotomy x z with h2 | h2 | h2
          · simp [h2]
          · subst h2
            simp only [lt_irrefl, if_false] at hab hbc ⊢
            exact ih ys zs hab hbc
          · rw [if_neg (asymm h2), if_pos h2] at hbc; cases hbc
        · rw [if_neg (asymm h1), if_pos h1] at hab; cases hab

theorem strLeJs_refl (a : String) : strLeJs a a = true := charListLe_refl a.data

theorem strLeJs_total (a b : String) : strLeJs a b = true ∨ strLeJs b a = true :=
  charListLe_total a.data b.data

theorem strLeJs_trans (a b c : String) (h1 : strLeJs a b = true) (h2 : strLeJs b c = true) :
    strLeJs a c = true := charListLe_trans a.data b.data c.data h1 h2

theorem insertByCreatedDesc_mem (p x : RemotePoll) : ∀ l,
    x ∈ insertByCreatedDesc p l ↔ x = p ∨ x ∈ l := by
  intro l
  induction l with
  | nil => simp [insertByCreatedDesc]
  | cons q rest ih =>
    by_cases h : strLeJs p.created_at q.created_at
    · simp only [insertByCreatedDesc, h, if_true, List.mem_cons, ih]
      tauto
    · simp only [insertByCreatedDesc, h, Bool.false_eq_true, if_false, List.mem_cons]

/-- Head-maximality: whenever the list has a head, every element compares
at most that head's `created_at`. -/
def HeadMaxDesc (l : List RemotePoll) : Prop :=
  ∀ q rest, l = q :: rest → ∀ x ∈ l, strLeJs x.created_at q.created_at = true

theorem insertByCreatedDesc_headMax (p : RemotePoll) (l : List RemotePoll)
    (h : HeadMaxDesc l) : HeadMaxDesc (insertByCreatedDesc p l) := by
  cases l with
  | nil =>
    intro q rest hq x hx
    have hq' : ([p] : List RemotePoll) = q :: rest := hq
    have hx' : x ∈ ([p] : List RemotePoll) := hx
    injection hq' with h1 h2
    rcases List.mem_cons.mp hx' with he | he
    · rw [he, h1]; exact strLeJs_refl _
    · cases he
  | cons q0 rest0 =>
    by_cases hle : strLeJs p.created_at q0.created_at
    · intro q rest hq x hx
      simp only [insertByCreatedDesc, hle, if_true] at hq hx
      injection hq with hq1 hq2
      subst hq1
      rcases List.mem_cons.mp hx with hx' | hx'
      · rw [hx']; exact strLeJs_refl _
      · rcases (insertByCreatedDesc_mem p x rest0).mp hx' with hx'' | hx''
        · rw [hx'']; exact hle
        · exact h q0 rest0 rfl x (List.mem_cons_of_mem _ hx'')
    · intro q rest hq x hx
      simp only [insertByCreatedDesc, hle, Bool.false_eq_true, if_false] at hq hx
      injection hq with hq1 hq2
      subst hq1
      have hq0p : strLeJs q0.created_at p.created_at = true := by
        rcases strLeJs_total p.created_at q0.created_at with h' | h'
        · exact absurd h' hle
        · exact h'
      rcases List.mem_cons.mp hx with hx' | hx'
      · rw [hx']; exact strLeJs_refl _
      · rcases List.mem_cons.mp hx' with hx'' | hx''
        · rw [hx'']; exact hq0p
        · exact strLeJs_trans _ _ _ (h q0 rest0 rfl x (List.mem_cons_of_mem _ hx'')) hq0p

theorem sortByCreatedDesc_aux (l : List RemotePoll) : ∀ acc : List RemotePoll,
    HeadMaxDesc acc →
    HeadMaxDesc (l.foldl (fun acc p => insertByCreatedDesc p acc) acc) ∧
    (∀ x, x ∈ l.foldl (fun acc p => insertByCreatedDesc p acc) acc ↔ x ∈ acc ∨ x ∈ l) := by
  induction l with
  | nil =>
    intro acc h
    exact ⟨h, fun x => by simp⟩
  | cons p rest ih =>
    intro acc h
    have h1 := ih (insertByCreatedDesc p acc) (insertByCreatedDesc_headMax p acc h)
    refine ⟨h1.1, fun x => ?_⟩
    rw [List.foldl_cons, h1.2 x, insertByCreatedDesc_mem]
    simp only [List.mem_cons]
    tauto

theorem sortByCreatedDesc_head (l : List RemotePoll) (hne : l ≠ []) :
    ∃ q rest, sortByCreatedDesc l = q :: rest ∧ q ∈ l ∧
      ∀ x ∈ l, strLeJs x.created_at q.created_at = true := by
  have haux := sortByCreatedDesc_aux l [] (fun q rest hq => by cases hq)
  rcases hs : sortByCreatedDesc l with _ | ⟨q, rest⟩
  · rcases l with _ | ⟨p, l'⟩
    · exact absurd rfl hne
    · have : p ∈ sortByCreatedDesc (p :: l') := by
        unfold sortByCreatedDesc
        rw [haux.2 p]
        simp
      rw [hs] at this
      cases this
  · refine ⟨q, rest, rfl, ?_, ?_⟩
    · have : q ∈ sortByCreatedDesc l := by rw [hs]; simp
      unfold sortByCreatedDesc at this
      rcases (haux.2 q).mp this with h' | h'
      · cases h'
      · exact h'
    · intro x hx
      have hx' : x ∈ sortByCreatedDesc l := by
        unfold sortByCreatedDesc
        rw [haux.2 x]
        exact Or.inr hx
      exact haux.1 q rest hs x hx'

/-- C6: when the remote index already holds polls whose
`meta.created_local_id` matches the draft's correlation key (as after a
first successful assert of the same draft), re-asserting the draft takes
the merge path: the run ends with `matchedExisting q.id` for a poll `q`
of the index that carries the draft's key and is newest among all
matching polls, and no `POST /polls` call is made — so no second remote
poll is created. -/
theorem assertPoll_idempotent_merge (st : St) (env : AssertEnv) (lp : LocalPoll)
    (polls : List RemotePoll) (c : Creds)
    (hl : isLocalDraft lp = true) (hid : st.identity = some c)
    (hlist : env.listResp = some polls)
    (hmatch : polls.filter (fun p => p.matchKey == localKeyOf lp) ≠ []) :
    ∃ st' evs q,
      assertPollToExchange st env lp = (st', evs, .matchedExisting q.id) ∧
      q ∈ polls ∧ q.matchKey = localKeyOf lp ∧
      (∀ m ∈ polls, m.matchKey = localKeyOf lp → strLeJs m.created_at q.created_at = true) ∧
      Ev.createPoll ∉ evs := by
  obtain ⟨q, rest, hsort, hqmem, hqmax⟩ :=
    sortByCreatedDesc_head (polls.filter (fun p => p.matchKey == localKeyOf lp)) hmatch
  rcases hsel : getLocalSelectedChoice st env.freshId lp with ⟨st1, localChoice⟩
  rcases hres : ensureStampReserve st1 env.reserveMint with ⟨st2, evMint⟩
  have hfr2 := ensureStampReserve_frame st1 env.reserveMint
  rw [hres] at hfr2
  simp only at hfr2
  rcases hmv : assertMatchedVote st2 env q localChoice with ⟨st3, evV⟩
  have hfrM := assertMatchedVote_frame st2 env q localChoice
  rw [hmv] at hfrM
  simp only at hfrM
  refine ⟨purgeLocalPollState st3 lp.id, evMint ++ [Ev.listPolls] ++ evV, q, ?_, ?_, ?_, ?_, ?_⟩
  · unfold assertPollToExchange
    simp only [hl, Bool.not_true, Bool.false_eq_true, if_false, hid, hsel, hres, hlist,
      hsort, List.head?_cons, hmv]
  · exact List.mem_of_mem_filter hqmem
  · simpa using (List.mem_filter.mp hqmem).2
  · intro m hm hkey
    exact hqmax m (List.mem_filter.mpr ⟨hm, by simp [hkey]⟩)
  · intro hmem
    rcases List.mem_append.mp hmem with h1 | h1
    · rcases List.mem_append.mp h1 with h2 | h2
      · exact Ev.noConfusion (hfr2.2.2.2 _ h2)
      · exact Ev.noConfusion (List.mem_singleton.mp h2)
    · exact hfrM.2.2 h1

/-- Two remote polls carrying the draft's correlation key, for the C6
witness: the newer one must win the merge. -/
def rpOld : RemotePoll :=
  { id := "r_old", created_at := "2024-01-01T00:00:00Z",
    created_local_id := some "local_1", options := [JOpt.obj (some "1") "Pizza"] }

def rpNew : RemotePoll :=
  { id := "r_new", created_at := "2024-02-01T00:00:00Z",
    created_local_id := some "local_1", options := [JOpt.obj (some "1") "Pizza"] }

def assertEnvMatch : AssertEnv :=
  { freshId := "f1", reserveMint := none, listResp := some [rpOld, rpNew],
    listResp2 := none, voteEnv := voteEnvNone, createResp := .errNetwork }

def stWithIdentity : St :=
  { localPolls := [lpLunch], votesAll := [], tokens := [], stamps := ["s_tok"],
    personaId := none, remoteLastChoice := [], identity := some ⟨"id1", "aa"⟩ }

/-- C6 witness: re-asserting the draft against an index holding two polls
with its correlation key matches (never creates), and the matched poll
carries the key and the newest `created_at`. -/
theorem assertPoll_idempotent_merge_witness :
    ∃ st' evs q,
      assertPollToExchange stWithIdentity assertEnvMatch lpLunch =
        (st', evs, .matchedExisting q.id) ∧
      q ∈ [rpOld, rpNew] ∧ q.matchKey = localKeyOf lpLunch ∧
      (∀ m ∈ [rpOld, rpNew], m.matchKey = localKeyOf lpLunch →
        strLeJs m.created_at q.created_at = true) ∧
      Ev.createPoll ∉ evs :=
  assertPoll_idempotent_merge stWithIdentity assertEnvMatch lpLunch [rpOld, rpNew]
    ⟨"id1", "aa"⟩ (by decide) rfl rfl (by decide)

-- ---- single-retry lemmas ----

theorem pickOneStampOrNull_mem (pool : List String) (r : Nat) (h : pool ≠ []) :
    ∃ v, pickOneStampOrNull pool r = some v ∧ v ∈ pool := by
  unfold pickOneStampOrNull
  rw [if_neg (by simpa [List.isEmpty_iff] using h)]
  have hlen : 0 < pool.length := List.length_pos.mpr h
  have hlt : r % pool.length < pool.length := Nat.mod_lt _ hlen
  exact ⟨pool.get ⟨r % pool.length, hlt⟩, List.get?_eq_get hlt, List.get_mem _ _ hlt⟩

theorem applyMintResp_stamps (st : St) (m : MintResp) (h : m.issued.isEmpty = false) :
    (applyMintResp st m).stamps = addStampsToPool st.stamps m.issued := by
  unfold applyMintResp
  rcases hp : m.persona_id with _ | p
  · simp [h]
  · by_cases hq : p = "" <;> simp [h, hq]

/-- C7: (a) no run of `castExchangeVoteByLabel` ever posts more than two
votes; and (b) on a first vote (no stored voter token) backed by a
non-empty stamp pool that the server rejects with 403, when the single
re-mint yields a usable pool the run posts exactly two votes with the
trace stamp-vote, pool-clear, mint, stamp-vote: the first stamp comes
from the old pool, the retry stamp from the freshly minted batch, and the
outcome is success exactly when the retried request succeeds — there is
never a second automatic retry. -/
theorem castExchangeVote_single_retry (st : St) (env : VoteEnv) (poll : VPoll)
    (label : String) (idx : Nat) (c : Creds) (m : MintResp)
    (hnl : startsWithJs poll.effectivePollId "local_" = false)
    (hne : ¬ poll.effectivePollId = "")
    (hidx : poll.options.findIdx? (fun o => o.labelOf == label) = some idx)
    (htok : getToken st.tokens poll.effectivePollId = none)
    (hpool : (getExchangeStampPool st.stamps).isEmpty = false)
    (hfail : env.resp1.ok = false)
    (h403 : env.resp1.status = 403)
    (hid : st.identity = some c)
    (hmint : env.retryMint = some m)
    (hfresh : getExchangeStampPool (addStampsToPool [] m.issued) ≠ []) :
    (∀ (st0 : St) (env0 : VoteEnv) (poll0 : VPoll) (label0 : String),
      countVotes (castExchangeVoteByLabel st0 env0 poll0 label0).2.1 ≤ 2) ∧
    ∃ st' out s1 s2,
      castExchangeVoteByLabel st env poll label =
        (st', [Ev.vote poll.effectivePollId (optionIdAt poll.options idx) (Cred.stamp s1),
               Ev.clearPool, Ev.mint,
               Ev.vote poll.effectivePollId (optionIdAt poll.options idx) (Cred.stamp s2)],
         out) ∧
      s1 ∈ getExchangeStampPool st.stamps ∧
      s2 ∈ addStampsToPool [] m.issued ∧
      (out = VoteOutcome.ok ↔ env.resp2.ok = true) := by
  refine ⟨fun st0 env0 poll0 label0 => (castVote_frame st0 env0 poll0 label0).2.2.2.2.2, ?_⟩
  have hm_ne : m.issued.isEmpty = false := by
    rcases he : m.issued with _ | ⟨v, vs⟩
    · exfalso; apply hfresh; rw [he]; rfl
    · rfl
  have hpoolne : getExchangeStampPool st.stamps ≠ [] := by
    intro h0; rw [h0] at hpool; cases hpool
  obtain ⟨s1, hs1pick, hs1mem⟩ :=
    pickOneStampOrNull_mem (getExchangeStampPool st.stamps) env.rand1 hpoolne
  have hg1 : getOrFetchOneStampOrNull st env.voteMint env.rand1 = (st, [], some s1) := by
    unfold getOrFetchOneStampOrNull
    simp [hpool, hs1pick]
  have hstCstamps : (clearExchangeStampPool st).stamps = [] := rfl
  have hstCid : (clearExchangeStampPool st).identity = st.identity := rfl
  obtain ⟨s2, hs2pick, hs2mem⟩ :=
    pickOneStampOrNull_mem (getExchangeStampPool (addStampsToPool [] m.issued)) env.rand2 hfresh
  have happly : (applyMintResp (clearExchangeStampPool st) m).stamps =
      addStampsToPool [] m.issued := by
    rw [applyMintResp_stamps _ _ hm_ne, hstCstamps]
  have hg2 : getOrFetchOneStampOrNull (clearExchangeStampPool st) env.retryMint env.rand2 =
      (applyMintResp (clearExchangeStampPool st) m, [Ev.mint], some s2) := by
    simp only [getOrFetchOneStampOrNull, hstCstamps, hstCid, hid, hmint]
    rw [show getExchangeStampPool [] = [] from rfl]
    simp only [List.isEmpty_nil, Bool.not_true, Bool.false_eq_true, if_false]
    rw [happly, hs2pick]
  have hnl' : ¬ (startsWithJs poll.effectivePollId "local_" = true) := by
    rw [hnl]; exact Bool.false_ne_true
  unfold castExchangeVoteByLabel
  rw [if_neg hnl', if_neg hne]
  simp only [hidx, htok, hg1]
  simp only [hfail, Bool.false_eq_true, if_false]
  rw [if_pos h403]
  simp only [hg2]
  by_cases hok2 : env.resp2.ok = true
  · rw [if_pos hok2]
    refine ⟨_, _, s1, s2, rfl, hs1mem, List.mem_of_mem_filter hs2mem, ?_⟩
    simp [hok2]
  · rw [if_neg hok2]
    refine ⟨_, _, s1, s2, rfl, hs1mem, List.mem_of_mem_filter hs2mem, ?_⟩
    exact ⟨fun h => absurd h (by simp), fun h => absurd h hok2⟩

/-- Concrete inputs for the C7 witness: one stamp in the pool, a 403
rejection of the first attempt, a re-mint issuing one fresh stamp, and a
retry that succeeds. -/
def pollRemote : VPoll :=
  { id := "r_1", meta_exchange_poll_id := none, meta_exchange_id := none,
    exchange_poll_id := none, exchange_id := none,
    options := [JOpt.obj (some "1") "Pizza"] }

def mintFresh : MintResp := { persona_id := none, issued := [JVal.jstr "s_two"] }

def envRetry403 : VoteEnv :=
  { voteMint := none, rand1 := 0,
    resp1 := { ok := false, status := 403, voter_token := none, body := "stamp rejected" },
    retryMint := some mintFresh, rand2 := 0,
    resp2 := { ok := true, status := 200, voter_token := some "vt_1", body := "" } }

def stOneStamp : St :=
  { localPolls := [], votesAll := [], tokens := [], stamps := ["s_one"],
    personaId := none, remoteLastChoice := [], identity := some ⟨"id1", "aa"⟩ }

/-- C7 witness: with one pooled stamp and a 403 on the first attempt, the
run performs exactly one retry — vote, clear, one mint, vote — the retry
stamp is the freshly minted one, and the outcome follows the retried
request. -/
theorem castExchangeVote_single_retry_witness :
    (∀ (st0 : St) (env0 : VoteEnv) (poll0 : VPoll) (label0 : String),
      countVotes (castExchangeVoteByLabel st0 env0 poll0 label0).2.1 ≤ 2) ∧
    ∃ st' out s1 s2,
      castExchangeVoteByLabel stOneStamp envRetry403 pollRemote "Pizza" =
        (st', [Ev.vote pollRemote.effectivePollId
                 (optionIdAt pollRemote.options 0) (Cred.stamp s1),
               Ev.clearPool, Ev.mint,
               Ev.vote pollRemote.effectivePollId
                 (optionIdAt pollRemote.options 0) (Cred.stamp s2)],
         out) ∧
      s1 ∈ getExchangeStampPool stOneStamp.stamps ∧
      s2 ∈ addStampsToPool [] mintFresh.issued ∧
      (out = VoteOutcome.ok ↔ envRetry403.resp2.ok = true) :=
  castExchangeVote_single_retry stOneStamp envRetry403 pollRemote "Pizza" 0
    ⟨"id1", "aa"⟩ mintFresh (by decide) (by decide) (by decide) rfl rfl rfl rfl rfl rfl
    (by decide)

-- ---- C8: rejected voter tokens are never invalidated locally ----

/-- A store holding a voter token for poll `p1`, a spare stamp and an
identity. -/
def stStoredToken : St :=
  { localPolls := [], votesAll := [], tokens := [("p1", "tok_x")], stamps := ["s_spare"],
    personaId := none, remoteLastChoice := [], identity := some ⟨"id1", "aa"⟩ }

/-- The server rejects the token-authenticated vote and names the token
invalid in the body. -/
def envInvalidToken : VoteEnv :=
  { voteMint := none, rand1 := 0,
    resp1 := { ok := false, status := 403, voter_token := none,
               body := "invalid X-Voter-Token" },
    retryMint := none, rand2 := 0, resp2 := respFail }

def pollP1 : VPoll :=
  { id := "p1", meta_exchange_poll_id := none, meta_exchange_id := none,
    exchange_poll_id := none, exchange_id := none,
    options := [JOpt.obj (some "1") "Apples"] }

/-- C8: on the live vote path a vote rejected as `invalid X-Voter-Token`
leaves the store — including the stored token — completely unchanged,
and every subsequent vote on that poll still sends the same stored
voter token: the client never falls back to the stamp-authenticated
first-vote path, contrary to the claimed local credential invalidation. -/
theorem castExchangeVote_invalid_token_not_cleared :
    castExchangeVoteByLabel stStoredToken envInvalidToken pollP1 "Apples" =
      (stStoredToken, [Ev.vote "p1" "1" (Cred.voterToken "tok_x")],
       VoteOutcome.err "invalid X-Voter-Token") ∧
    ∀ env' : VoteEnv,
      (castExchangeVoteByLabel stStoredToken env' pollP1 "Apples").2.1 =
        [Ev.vote "p1" "1" (Cred.voterToken "tok_x")] := by
  have h1 : ¬ (startsWithJs pollP1.effectivePollId "local_" = true) := by decide
  have h2 : ¬ pollP1.effectivePollId = "" := by decide
  have hidx : pollP1.options.findIdx? (fun o => o.labelOf == "Apples") = some 0 := by decide
  have htok : getToken stStoredToken.tokens pollP1.effectivePollId = some "tok_x" := by decide
  constructor
  · unfold castExchangeVoteByLabel
    rw [if_neg h1, if_neg h2]
    simp only [hidx, htok]
    rw [if_neg (show ¬(envInvalidToken.resp1.ok = true) from by decide)]
    rfl
  · intro env'
    unfold castExchangeVoteByLabel
    rw [if_neg h1, if_neg h2]
    simp only [hidx, htok]
    by_cases hok : env'.resp1.ok = true
    · rw [if_pos hok]; rfl
    · rw [if_neg hok]; rfl

end HelmPoll
